import Mathlib

/-!
Verification of the critical-apparatus translation engine of the
AphorismToTEI repository (authoritative sources: `src/hyppocratic/analysis.py`,
`src/hyppocratic/footnotes.py`, `src/hyppocratic/baseclass.py`,
`src/hyppocratic/conf.py`).

Python strings are modelled as `List Char`; the Python string primitives used
by the code (`partition`, `rpartition`, `split`, `rsplit`, `splitlines`,
`strip`, `join`, negative indexing, slices) are given executable definitions
below.  Stateful methods of the classes `Footnote` / `Footnotes` become
explicit state-passing functions; Python exceptions become `Except` errors.
Loops whose progress measure is the length of the remaining string are
implemented structurally with an explicit fuel argument, initialised by the
wrapper with `length + 1`, which is always sufficient because every iteration
consumes at least one character.
-/

set_option maxRecDepth 10000

abbrev Str := List Char

/-- The Python exception classes that can escape the modelled code. -/
inductive PyErr
  | analysisException
  | footnotesException
  | valueError
  | keyError
  | typeError
  | indexError
  deriving DecidableEq, Repr

instance {e a : Type} [DecidableEq e] [DecidableEq a] :
    DecidableEq (Except e a) := fun x y =>
  match x, y with
  | .ok u, .ok v =>
    if h : u = v then isTrue (by rw [h]) else isFalse (by simp [h])
  | .error u, .error v =>
    if h : u = v then isTrue (by rw [h]) else isFalse (by simp [h])
  | .ok _, .error _ => isFalse (by simp)
  | .error _, .ok _ => isFalse (by simp)

/-- Boolean test that `p` is a literal prefix of `s` (like `str.startswith`). -/
def leadsWith : Str → Str → Bool
  | [], _ => true
  | _ :: _, [] => false
  | a :: as, b :: bs => a = b && leadsWith as bs

/-- First occurrence of the (non-empty) substring `sep` in `s`:
returns the part before the occurrence and the part after it.
This is the search underlying Python `str.partition` / `str.find`. -/
def findSub (sep : Str) : Str → Option (Str × Str)
  | [] => none
  | c :: rest =>
    if leadsWith sep (c :: rest) then some ([], (c :: rest).drop sep.length)
    else
      match findSub sep rest with
      | some (b, a) => some (c :: b, a)
      | none => none

/-- Python `s.partition(sep)`: `(before, sep, after)` at the first occurrence,
`(s, '', '')` when `sep` does not occur. -/
def pyPartition (sep s : Str) : Str × Str × Str :=
  match findSub sep s with
  | some (b, a) => (b, sep, a)
  | none => (s, [], [])

/-- Python `s.rpartition(c)` for a single-character separator:
`(before, c, after)` at the last occurrence, `('', '', s)` when absent. -/
def rpartitionChar (c : Char) (s : Str) : Str × Str × Str :=
  match findSub [c] s.reverse with
  | none => ([], [], s)
  | some (bRev, aRev) => (aRev.reverse, [c], bRev.reverse)

/-- Python `in` on strings: substring containment. -/
def containsSub (sep s : Str) : Bool :=
  (findSub sep s).isSome

/-- The whitespace characters stripped by Python `str.strip()` (the ASCII
ones, which are the only ones occurring in the modelled corpus). -/
def isWsChar (c : Char) : Bool :=
  c = ' ' || c = '\t' || c = '\n' || c = '\r' || c = '\x0b' || c = '\x0c'

/-- Python `s.strip()`. -/
def stripWs (s : Str) : Str :=
  ((s.dropWhile isWsChar).reverse.dropWhile isWsChar).reverse

/-- Python `s.strip(cs)` for an explicit character set. -/
def pyStrip (cs : List Char) (s : Str) : Str :=
  ((s.dropWhile (fun c => cs.contains c)).reverse.dropWhile
    (fun c => cs.contains c)).reverse

/-- Fuelled worker for Python `s.split(sep)` with explicit separator. -/
def pySplitF : Nat → Str → Str → List Str
  | 0, _, s => [s]
  | fuel + 1, sep, s =>
    match findSub sep s with
    | none => [s]
    | some (b, a) => b :: pySplitF fuel sep a

/-- Python `s.split(sep)` (equivalently `s.rsplit(sep)` with no maxsplit):
splits at every occurrence, keeping empty parts. -/
def pySplit (sep s : Str) : List Str :=
  pySplitF (s.length + 1) sep s

/-- Worker for Python `s.split()` (no argument): split on whitespace runs,
discarding empty parts.  `acc` is the current word, reversed. -/
def wsplitAux : Str → Str → List Str
  | [], acc => if acc = [] then [] else [acc.reverse]
  | c :: rest, acc =>
    if isWsChar c then
      if acc = [] then wsplitAux rest [] else acc.reverse :: wsplitAux rest []
    else wsplitAux rest (c :: acc)

/-- Python `s.split()` with no argument. -/
def wsplit (s : Str) : List Str :=
  wsplitAux s []

/-- Python `sep.join(parts)`. -/
def joinSep (sep : Str) : List Str → Str
  | [] => []
  | x :: xs =>
    match xs with
    | [] => x
    | _ :: _ => x ++ sep ++ joinSep sep xs

/-- Python `s.splitlines()` restricted to `'\n'` line breaks (the only line
break the modelled code ever produces or consumes): the empty string gives no
lines and a trailing `'\n'` produces no final empty line. -/
def pySplitlines (s : Str) : List Str :=
  if s = [] then []
  else if s.getLast? = some '\n' then pySplit ['\n'] s.dropLast
  else pySplit ['\n'] s

/-- Decimal digits of a natural number, most significant first
(Python `str(n)` for a non-negative int). -/
def decStr (n : Nat) : Str :=
  Nat.toDigits 10 n

def isDigitC (c : Char) : Bool :=
  '0' ≤ c && c ≤ '9'

def digsToNat : List Char → Nat → Nat
  | [], acc => acc
  | c :: r, acc => digsToNat r (acc * 10 + (c.toNat - '0'.toNat))

/-- Python `int(s)`: strip whitespace, optional sign, then a non-empty run of
decimal digits; `none` models the `ValueError` on anything else. -/
def pyInt (s : Str) : Option Int :=
  let core : Int → Str → Option Int := fun sign ds =>
    if ds ≠ [] ∧ ds.all isDigitC then some (sign * (digsToNat ds 0 : Int))
    else none
  match stripWs s with
  | '+' :: r => core 1 r
  | '-' :: r => core (-1) r
  | r => core 1 r

/-- Python list indexing `l[i]` with negative-index wrap-around;
`none` models `IndexError`. -/
def pyGet {α : Type} (l : List α) (i : Int) : Option α :=
  if 0 ≤ i then l.get? i.toNat
  else
    let j : Int := (l.length : Int) + i
    if 0 ≤ j then l.get? j.toNat else none

/-- Python slice `l[i:j]` with negative endpoints and clamping. -/
def intSlice {α : Type} (l : List α) (i j : Int) : List α :=
  let n : Int := l.length
  let norm : Int → Nat := fun k =>
    if k < 0 then (if n + k < 0 then 0 else (n + k).toNat)
    else (if n < k then l.length else k.toNat)
  (l.take (norm j)).drop (norm i)

/-- Python `list.index(x)` as an option (`none` models `ValueError`). -/
def pyIndex (x : Str) : List Str → Option Nat
  | [] => none
  | y :: rest => if y = x then some 0 else (pyIndex x rest).map (· + 1)

/-- Insertion into a Python (ordered) dict keyed by integers: an existing key
keeps its position and gets the new value, a new key is appended. -/
def odInsert (k : Int) (v : Str) : List (Int × Str) → List (Int × Str)
  | [] => [(k, v)]
  | (k', v') :: rest =>
    if k = k' then (k, v) :: rest else (k', v') :: odInsert k v rest

/-- Lookup in the ordered-dict model. -/
def odLookup (k : Int) : List (Int × Str) → Option Str
  | [] => none
  | (k', v) :: rest => if k = k' then some v else odLookup k rest

/-- Fuelled count of non-overlapping occurrences of `pat` (Python
`s.count(pat)` semantics). -/
def countOccF : Nat → Str → Str → Nat
  | 0, _, _ => 0
  | fuel + 1, pat, s =>
    match findSub pat s with
    | none => 0
    | some (_, a) => 1 + countOccF fuel pat a

def countOcc (pat s : Str) : Nat :=
  countOccF (s.length + 1) pat s

theorem leadsWith_destruct :
    ∀ {p s : Str}, leadsWith p s = true → s = p ++ s.drop p.length := by
  intro p
  induction p with
  | nil => intro s _; simp
  | cons a as ih =>
    intro s h
    cases s with
    | nil => simp [leadsWith] at h
    | cons b bs =>
      simp only [leadsWith, Bool.and_eq_true, decide_eq_true_eq] at h
      obtain ⟨rfl, h2⟩ := h
      have := ih h2
      simpa using congrArg (a :: ·) this

theorem leadsWith_append_self : ∀ (p r : Str), leadsWith p (p ++ r) = true := by
  intro p
  induction p with
  | nil => intro r; simp [leadsWith]
  | cons a as ih => intro r; simp [leadsWith, ih r]

theorem findSub_eq_some :
    ∀ {s sep b a : Str}, findSub sep s = some (b, a) → s = b ++ sep ++ a := by
  intro s
  induction s with
  | nil => intro sep b a h; simp [findSub] at h
  | cons c rest ih =>
    intro sep b a h
    by_cases hl : leadsWith sep (c :: rest) = true
    · rw [findSub, if_pos hl] at h
      obtain ⟨rfl, rfl⟩ := Prod.mk.injEq _ _ _ _ ▸ (Option.some.injEq _ _ ▸ h)
      have := leadsWith_destruct hl
      simpa using this
    · rw [findSub, if_neg hl] at h
      cases hrec : findSub sep rest with
      | none => rw [hrec] at h; simp at h
      | some p =>
        obtain ⟨b', a'⟩ := p
        rw [hrec] at h
        simp only [Option.some.injEq, Prod.mk.injEq] at h
        obtain ⟨rfl, rfl⟩ := h
        have := ih hrec
        simp [← this]

/-! ## Embedding of `src/hyppocratic/analysis.py` -/

/-- `conf.XML_OSS`: the four-space indentation unit. -/
def xmlOss : Str := "    ".toList

/-- `XML_OSS * XML_N_OFFSET` with `XML_N_OFFSET = 3`: the indentation put in
front of every main-text line produced by `footnotes`. -/
def xmlIndent : Str := xmlOss ++ xmlOss ++ xmlOss

/-- The `<locus target="W">L</locus>` insertion of `analysis.references`. -/
def mkLocus (w l : Str) : Str :=
  "<locus target=\"".toList ++ w ++ "\">".toList ++ l ++ "</locus>".toList

/-- Fuelled worker for the `while True` loop of `analysis.references`:
`line` is the text still to process, `result` the accumulated output. -/
def refLoopF : Nat → Str → Str → Except PyErr Str
  | 0, _, _ => .error .analysisException
  | fuel + 1, line, result =>
    match findSub ['['] line with
    | none => .ok (result ++ line)
    | some (before, after) =>
      let res1 := if before = [] then result else result ++ before ++ ['\n']
      match findSub [']'] after with
      | none => .error .analysisException
      | some (ref, rest) =>
        match findSub [' '] ref with
        | none => .error .analysisException
        | some (wit, page) =>
          let res2 := res1 ++ mkLocus (stripWs wit) (stripWs page)
          if rest = [] then .ok res2
          else refLoopF fuel rest (res2 ++ ['\n'])

/-- `analysis.references(line)`.  A `None` or empty argument makes the Python
function return `None` (modelled `.ok none`); otherwise the accumulated string
is returned. -/
def references (line : Option Str) : Except PyErr (Option Str) :=
  match line with
  | none => .ok none
  | some l =>
    if l = [] then .ok none
    else (refLoopF (l.length + 1) l []).map some

/-- The inline footnote symbol `'*' + str(next_footnote) + '*'`. -/
def fnSymbol (n : Nat) : Str :=
  '*' :: (decStr n ++ ['*'])

/-- Lines appended for a chunk of ordinary text: split into source lines,
each stripped and indented (`analysis.footnotes`, no-symbol branch and
`next_text_for_xml` handling). -/
def litLines (s : Str) : List Str :=
  (pySplitlines s).map (fun l => xmlIndent ++ stripWs l)

/-- Lines appended for generated XML text: split into lines, indented but not
stripped (`analysis.footnotes`, `next_string` handling). -/
def rawLines (s : Str) : List Str :=
  (pySplitlines s).map (fun l => xmlIndent ++ l)

/-- The `<app …><rdg>…</rdg><anchor …/>` string built for footnote `n` with
flagged span `base`. -/
def appString (n : Nat) (base : Str) : Str :=
  "<app n=\"".toList ++ decStr n ++
    "\" type=\"footnote\" xml:id=\"begin_fn".toList ++ decStr n ++
    "\"><rdg>".toList ++ base ++
    "</rdg><anchor xml:id=\"end_fn".toList ++ decStr n ++ "\"/>".toList

/-- The lines appended for one recognised footnote marker: the unflagged
prefix, the `<app>` block and the closing `</app>`. -/
def markerChunk (n : Nat) (unflagged base : Str) : List Str :=
  litLines unflagged ++ rawLines (appString n base) ++
    [xmlIndent ++ "</app>".toList]

/-- Fuelled worker for the `while True` loop of `analysis.footnotes`. -/
def fnLoopF : Nat → Str → Nat → Except PyErr (List Str × Nat)
  | 0, _, _ => .error .analysisException
  | fuel + 1, s, n =>
    match findSub (fnSymbol n) s with
    | none => .ok (litLines s, n)
    | some (before, after) =>
      let p0 := pyPartition ['#'] before
      let p := if p0.2.1 = [] then rpartitionChar ' ' before else p0
      if p.2.1 = [] then .error .analysisException
      else
        let chunk := markerChunk n p.1 p.2.2
        if after = [] then .ok (chunk, n + 1)
        else
          match fnLoopF fuel after (n + 1) with
          | .error e => .error e
          | .ok (xs, m) => .ok (chunk ++ xs, m)

/-- `analysis.footnotes(string_to_process, next_footnote)`: returns the main
text XML lines and the updated footnote cursor. -/
def footnotes (s : Str) (n : Nat) : Except PyErr (List Str × Nat) :=
  fnLoopF (s.length + 1) s n

/-- Orchestration of a whole document: `footnotes` applied to each line in
source order, threading the cursor (this is how `aphorisms_to_xml.Process`
drives the splicer). -/
def spliceDoc : List Str → Nat → Except PyErr (List Str × Nat)
  | [], c => .ok ([], c)
  | l :: rest, c =>
    match footnotes l c with
    | .error e => .error e
    | .ok (x, c') =>
      match spliceDoc rest c' with
      | .error e => .error e
      | .ok (xs, c'') => .ok (x ++ xs, c'')

/-! ## Embedding of `src/hyppocratic/footnotes.py` -/

/-- The `d_footnote` dictionary of a `Footnote` object.  Its value shape
depends on which method filled it: `empty` is the initial `{}`, `note` is the
`{'note': …}` fallback, `om` is the dictionary built by `omission`
(`reason` / `text` / `witnesses` / `corrections` / `omission` keys, the
two witness slots and omission flags are optional strings), `corr` is the
dictionary built by `correction` (`witnesses` is a pair of witness-code
lists, `corrections` a pair of readings). -/
inductive DFoot
  | empty
  | note (s : Str)
  | om (reason : Option Str) (text : Option Str) (wits : List (Option Str))
      (corr : Option Str) (omits : List (Option Str))
  | corr (reason : Str) (text : Str) (wits : List (List Str))
      (corrs : List Str)
  deriving DecidableEq, Repr

/-- The mutable state of one `Footnote` object. -/
structure FNState where
  footnote : Str
  n_footnote : Nat
  xml : List Str
  dfoot : DFoot
  deriving DecidableEq, Repr

/-- `Hyppocratic.note_xml`: the single line it appends to `self.xml`. -/
def noteLine (s : Str) : Str :=
  xmlOss ++ "<note>".toList ++ s ++ "</note>".toList

/-- Outcome of the parsing part (the `try` block) of `Footnote.omission`. -/
inductive OmParse
  | set (d : DFoot)
  | noteEarly
  | caught
  deriving DecidableEq, Repr

/-- The `try` block of `Footnote.omission`, which reads only
`self.footnote`: either it assigns a fresh `d_footnote` (`set`), or the
missing-`om.` path assigns `{'note': …}` and returns early (`noteEarly`),
or an `IndexError`/`FootnotesException` is caught, leaving `d_footnote`
unchanged and appending a `<note>` line (`caught`). -/
def omissionParse (fn : Str) : OmParse :=
  match pySplit [']'] fn with
  | [p0, p1] =>
    let text := stripWs p0
    let tmp := pySplit [' '] (stripWs p1)
    match tmp with
    | [a, _, c] =>
      if a = "correxi:".toList ∨ a = "conieci:".toList then
        .set (.om (some (pyStrip [':'] a)) (some text) [some c, none] none
          [some "omission".toList, none])
      else
        .set (.om none (some text) [some (pyStrip [':'] a), some c] none
          [none, some "omission".toList])
    | [a, _, c3, c4] =>
      .set (.om (some (stripWs (pyStrip [':'] a))) (some text)
        [some (pyStrip [','] c3), some c4] none
        [some "omission".toList, some "omission".toList])
    | tmp' =>
      match tmp' with
      | [] => .caught
      | a :: _ =>
        let reason := stripWs (pyStrip [':'] a)
        match pyIndex "om.".toList tmp' with
        | none => .noteEarly
        | some omIdx =>
          let corr := joinSep [' '] (intSlice tmp' 1 ((omIdx : Int) - 1))
          match pyGet tmp' ((omIdx : Int) - 1), tmp'.getLast? with
          | some wA, some wB =>
            .set (.om (some reason) (some text)
              [some (stripWs (pyStrip [':'] wA)), some wB] (some corr)
              [none, some "omission".toList])
          | _, _ => .caught
  | _ => .caught

/-- Python truthiness of an optional string
(`None` and `''` are falsy, any other string truthy). -/
def optTruthy : Option Str → Bool
  | none => false
  | some s => !s.isEmpty

/-- The witness loop at the end of `Footnote._omission_xml`: one `<rdg>` line
per non-`None` witness slot, with a `<gap>` for flagged omissions and the
(possibly corrected) text attached to the first witness.  An out-of-range
access into the `omission` list is an uncaught `IndexError`. -/
def omWitGo (text : Option Str) (omits : List (Option Str)) :
    Nat → List (Option Str) → Except PyErr (List Str)
  | _, [] => .ok []
  | i, none :: rest => omWitGo text omits (i + 1) rest
  | i, some w :: rest =>
    match omits.get? i with
    | none => .error .indexError
    | some ov =>
      let s1 := xmlOss ++ "<rdg wit=\"#".toList ++ w ++ "\">".toList
      let s2 :=
        if optTruthy ov then
          s1 ++ '\n' :: (xmlOss ++ xmlOss ++ "<gap reason=\"omission\"/>".toList)
        else s1
      let s3 :=
        if i = 0 ∧ text.isSome then s2 ++ text.getD [] ++ "</rdg>".toList
        else s2 ++ '\n' :: (xmlOss ++ "</rdg>".toList)
      match omWitGo text omits (i + 1) rest with
      | .ok ls => .ok (s3 :: ls)
      | .error e => .error e

/-- The five-line `<rdg><choice><corr>…</corr></choice></rdg>` block shared
by `_omission_xml` and `_correction_xml` (`conj` selects
`type="conjecture"`). -/
def corrBlock (conj : Bool) (t : Str) : List Str :=
  [xmlOss ++ "<rdg>".toList,
   xmlOss ++ xmlOss ++ "<choice>".toList,
   xmlOss ++ xmlOss ++ xmlOss ++
     (if conj then "<corr type=\"conjecture\">".toList
      else "<corr>".toList) ++ t ++ "</corr>".toList,
   xmlOss ++ xmlOss ++ "</choice>".toList,
   xmlOss ++ "</rdg>".toList]

/-- `Footnote._omission_xml`.  Reading `d_footnote['reason']` on a dictionary
without that key is an uncaught `KeyError`; feeding it a dictionary built by
`correction` (which never happens on the modelled call paths) also fails on
its first ill-typed access and is represented by `keyError` as well.
For `reason = correxi/conieci` the method emits the correction block and then
overwrites `d_footnote['text']` with `d_footnote['corrections']` before the
witness loop; for any other non-`None` reason it appends a `<note>` line and
returns without touching the witnesses. -/
def omissionXml (st : FNState) : Except PyErr FNState :=
  match st.dfoot with
  | .om reason text wits corr omits =>
    match reason with
    | none =>
      match omWitGo text omits 0 wits with
      | .ok ls => .ok { st with xml := st.xml ++ ls }
      | .error e => .error e
    | some r =>
      if r = "correxi".toList ∨ r = "conieci".toList then
        match text with
        | none => .error .typeError
        | some t =>
          let pre := corrBlock (r = "conieci".toList) t
          match omWitGo corr omits 0 wits with
          | .ok ls =>
            .ok { st with xml := st.xml ++ pre ++ ls,
                          dfoot := .om reason corr wits corr omits }
          | .error e => .error e
      else .ok { st with xml := st.xml ++ [noteLine st.footnote] }
  | _ => .error .keyError

/-- `Footnote.omission`: parse `self.footnote`, set / keep `d_footnote`
accordingly, then (except on the early-`return` path) run
`self._omission_xml()`. -/
def omission (st : FNState) : Except PyErr FNState :=
  match omissionParse st.footnote with
  | .noteEarly => .ok { st with dfoot := .note st.footnote }
  | .set d => omissionXml { st with dfoot := d }
  | .caught => omissionXml { st with xml := st.xml ++ [noteLine st.footnote] }

/-- Outcome of the `try` block of `Footnote.correction`. -/
inductive CorrParse
  | set (d : DFoot)
  | caught
  deriving DecidableEq, Repr

/-- The `try` block of `Footnote.correction(reason)`, reading only
`self.footnote` and the `reason` argument.  All `IndexError`s inside the
outer `try` are caught (`caught`); the inner `try` around the second witness
group falls back to an empty reading and witness list. -/
def correctionParse (reason : Str) (fn : Str) : CorrParse :=
  match pySplit [']'] fn with
  | [] => .caught
  | p0 :: rest0 =>
    match rest0.head? with
    | none => .caught
    | some p1 =>
      let text := stripWs p0
      let step : Option Str :=
        if reason = "correxi".toList ∨ reason = "conieci".toList then
          ((pySplit (reason ++ [':']) p1).get? 1).map stripWs
        else if reason = "add".toList then
          ((pySplit "add.".toList p1).get? 1).map stripWs
        else some p1
      match step with
      | none => .caught
      | some tmp =>
        match pySplit [':'] tmp with
        | [] => .caught
        | c10 :: c1r =>
          match pySplit [','] c10 with
          | [] => .caught
          | d10 :: d1r =>
            let e1 := wsplit d10
            match e1.getLast? with
            | none => .caught
            | some w1 =>
              let corr1 := joinSep [' '] e1.dropLast
              let wits1 := w1 :: d1r
              let pair2 : Str × List Str :=
                match c1r.head? with
                | none => ([], [])
                | some c11 =>
                  match pySplit [','] c11 with
                  | [] => ([], [])
                  | d20 :: d2r =>
                    let e2 := wsplit d20
                    match e2.getLast? with
                    | none => ([], [])
                    | some w2 => (joinSep [' '] e2.dropLast, w2 :: d2r)
              let corrs :=
                if reason = "standard".toList then [text, pair2.1]
                else [corr1, pair2.1]
              .set (.corr reason text [wits1, pair2.2] corrs)

/-- The addition loop of `Footnote._correction_xml` (`reason == 'add'`):
three lines per witness code; `corrections[i]` is only read when the `i`-th
witness list is non-empty. -/
def addLinesGo (corrs : List Str) :
    Nat → List (List Str) → Except PyErr (List Str)
  | _, [] => .ok []
  | i, wit :: rest =>
    if wit = [] then addLinesGo corrs (i + 1) rest
    else
      match corrs.get? i with
      | none => .error .indexError
      | some ci =>
        let mk : Str → List Str := fun w =>
          [xmlOss ++ "<rdg wit=\"#".toList ++ stripWs w ++ "\">".toList,
           xmlOss ++ xmlOss ++ "<add reason=\"add_scribe\">".toList ++ ci ++
             "</add>".toList,
           xmlOss ++ "</rdg>".toList]
        match addLinesGo corrs (i + 1) rest with
        | .ok ls => .ok ((wit.map mk).flatten ++ ls)
        | .error e => .error e

/-- The final witness loop of `Footnote._correction_xml`: one `<rdg>` line
per witness code of each group, carrying that group's reading. -/
def corrWitGo (corrs : List Str) :
    Nat → List (List Str) → Except PyErr (List Str)
  | _, [] => .ok []
  | i, wit :: rest =>
    if wit = [] then corrWitGo corrs (i + 1) rest
    else
      match corrs.get? i with
      | none => .error .indexError
      | some ci =>
        let lines := wit.map (fun w =>
          xmlOss ++ "<rdg wit=\"#".toList ++ stripWs w ++ "\">".toList ++ ci ++
            "</rdg>".toList)
        match corrWitGo corrs (i + 1) rest with
        | .ok ls => .ok (lines ++ ls)
        | .error e => .error e

/-- `Footnote._correction_xml`.  As for `_omission_xml`, a `d_footnote` of
the wrong shape fails on its first access (`keyError`). -/
def correctionXml (st : FNState) : Except PyErr FNState :=
  match st.dfoot with
  | .corr reason text wits corrs =>
    if reason = "add".toList then
      match addLinesGo corrs 0 wits with
      | .ok ls => .ok { st with xml := st.xml ++ ls }
      | .error e => .error e
    else
      let pre :=
        if reason = "correxi".toList then corrBlock false text
        else if reason = "conieci".toList then corrBlock true text
        else []
      match corrWitGo corrs 0 wits with
      | .ok ls => .ok { st with xml := st.xml ++ pre ++ ls }
      | .error e => .error e
  | _ => .error .keyError

/-- `Footnote.correction(reason)`. -/
def correction (reason : Str) (st : FNState) : Except PyErr FNState :=
  match correctionParse reason st.footnote with
  | .set d => correctionXml { st with dfoot := d }
  | .caught =>
    correctionXml { st with xml := st.xml ++ [noteLine st.footnote] }

/-- The per-line loop of `Footnotes._dictionary`: `line.rsplit('*')[1:]`
must unpack into exactly key and value (so the line must contain exactly two
`'*'`), the key goes through `int(...)` (an uncaught `ValueError` if it is
not numeric), and the value is stored stripped of `'.'` and `' '`. -/
def buildDict : List Str → List (Int × Str) → Except PyErr (List (Int × Str))
  | [], acc => .ok acc
  | l :: rest, acc =>
    match pySplit ['*'] l with
    | [_, k, v] =>
      match pyInt k with
      | some ki => buildDict rest (odInsert ki (pyStrip ['.', ' '] v) acc)
      | none => .error .valueError
    | _ => .error .footnotesException

/-- `Footnotes._dictionary` on the list-of-lines input shape.  The numeration
check `re.findall(str(_size), _tmp[-1])[0] == str(_size)` amounts to: the
decimal string of the number of entries occurs somewhere in the final line
(an empty list raises via the caught `IndexError`). -/
def dictionary (lines : List Str) : Except PyErr (List (Int × Str)) :=
  match lines.getLast? with
  | none => .error .footnotesException
  | some last =>
    if containsSub (decStr lines.length) last then buildDict lines []
    else .error .footnotesException

/-! ## Heap model for `Footnote` object construction (`Footnote.__init__`)

Python default arguments are evaluated once, at function-definition time, so
the `xml=[]` default of `Footnote.__init__` is a single list object shared by
every call that does not pass `xml` explicitly.  List objects are modelled by
slots in a small heap; slot `0` is that shared default list. -/

structure Heap where
  lists : List (List Str)
  deriving DecidableEq, Repr

def heapAlloc (h : Heap) (v : List Str) : Heap × Nat :=
  (⟨h.lists ++ [v]⟩, h.lists.length)

def heapGet (h : Heap) (i : Nat) : List Str :=
  (h.lists.get? i).getD []

def heapSet (h : Heap) (i : Nat) (v : List Str) : Heap :=
  ⟨h.lists.set i v⟩

/-- The slot of the default `xml=[]` list of `Footnote.__init__`. -/
def defaultXmlId : Nat := 0

/-- The heap right after the module is loaded: only the shared default list
exists, and it is empty. -/
def initialHeap : Heap := ⟨[[]]⟩

/-- A `Footnote` object: its `self.xml` attribute is a reference to a heap
slot. -/
structure FootnoteObj where
  footnote : Str
  n_footnote : Nat
  xmlId : Nat
  deriving DecidableEq, Repr

/-- `Footnote(footnote, n_footnote, xml?)`: `Hyppocratic.__init__` first binds
`self.xml` to a freshly allocated empty list, then `Footnote.__init__`
rebinds `self.xml` to the `xml` argument — the shared slot `0` when the
caller omits it. -/
def mkFootnote (fn : Str) (n : Nat) (xmlArg : Option Nat) (h : Heap) :
    FootnoteObj × Heap :=
  let h1 := (heapAlloc h []).1
  (⟨fn, n, xmlArg.getD defaultXmlId⟩, h1)

/-- Running `Footnote.omission` on an object whose `d_footnote` is still the
fresh `{}`: the object's list slot receives the appended XML lines. -/
def omissionOnHeap (o : FootnoteObj) (h : Heap) : Except PyErr Heap :=
  match omission ⟨o.footnote, o.n_footnote, heapGet h o.xmlId, .empty⟩ with
  | .ok st => .ok (heapSet h o.xmlId st.xml)
  | .error e => .error e

/-! ## Specification-side definitions

The following definitions transcribe wording of the specification / claims
(not the source); they exist to be compared with the behaviour of the
source-derived functions above. -/

/-- A structured line for the Reference Resolver round-trip property: each
segment is (literal text, witness, location), assembled as
`t[w l]…[w l]tail`. -/
def mkRefLine : List (Str × Str × Str) → Str → Str
  | [], tail => tail
  | (t, w, l) :: rest, tail =>
    t ++ '[' :: ((w ++ ' ' :: l) ++ ']' :: mkRefLine rest tail)

/-- The output the specification describes for `mkRefLine`: each literal
segment (followed by a line break when non-empty), then the `<locus>`
element, then a line break when more text follows. -/
def refOut : List (Str × Str × Str) → Str → Str
  | [], tail => tail
  | (t, w, l) :: rest, tail =>
    (if t = [] then [] else t ++ ['\n']) ++
      mkLocus (stripWs w) (stripWs l) ++
      (if mkRefLine rest tail = [] then [] else '\n' :: refOut rest tail)

def locusOpen : Str := '<' :: "locus target=\"".toList

def locusClose : Str := '<' :: '/' :: "locus>".toList

/-- Remove every `<locus target="…">…</locus>` element (fuelled worker). -/
def removeLociF : Nat → Str → Str
  | 0, s => s
  | fuel + 1, s =>
    if leadsWith locusOpen s then
      match findSub locusClose (s.drop locusOpen.length) with
      | some (_, after) => removeLociF fuel after
      | none => s
    else
      match s with
      | [] => []
      | c :: rest => c :: removeLociF fuel rest

def removeLoci (s : Str) : Str :=
  removeLociF (s.length + 1) s

/-- Remove line-break characters. -/
def dropNl (s : Str) : Str :=
  s.filter (fun c => c ≠ '\n')

/-- The error condition claimed for the Reference Resolver, transcribed from
the claim: scanning left to right, some `'['` has no later `']'`, or the
body between a `'['` and the next `']'` contains no space (fuelled
worker). -/
def malformedRefsF : Nat → Str → Bool
  | 0, _ => false
  | fuel + 1, s =>
    match findSub ['['] s with
    | none => false
    | some (_, after) =>
      match findSub [']'] after with
      | none => true
      | some (body, rest) =>
        if findSub [' '] body = none then true else malformedRefsF fuel rest

def malformedRefs (s : Str) : Bool :=
  malformedRefsF (s.length + 1) s

/-- A document line for the cursor property: either plain text or a line
carrying exactly one footnote marker (whose number is the cursor value at
that line). -/
inductive DocLine
  | plain (t : Str)
  | marked (pre tail : Str)
  deriving DecidableEq, Repr

/-- Number of footnote markers in the document. -/
def numMarked : List DocLine → Nat
  | [] => 0
  | .plain _ :: rest => numMarked rest
  | .marked _ _ :: rest => numMarked rest + 1

/-- The concrete text lines of a structured document, when the first marker
carries number `c`. -/
def docStrs : List DocLine → Nat → List Str
  | [], _ => []
  | .plain t :: rest, c => t :: docStrs rest c
  | .marked pre tail :: rest, c =>
    (pre ++ fnSymbol c ++ tail) :: docStrs rest (c + 1)

/-- Well-formedness of a structured document with first marker number `c`:
plain lines do not contain the expected symbol, each marker is located where
intended, the text before a marker has a `'#'` or a space to split at, and
the text after a marker does not contain the next symbol. -/
def docOK : List DocLine → Nat → Prop
  | [], _ => True
  | .plain t :: rest, c => findSub (fnSymbol c) t = none ∧ docOK rest c
  | .marked pre tail :: rest, c =>
    findSub (fnSymbol c) (pre ++ fnSymbol c ++ tail) = some (pre, tail) ∧
      ('#' ∈ pre ∨ ' ' ∈ pre) ∧
      findSub (fnSymbol (c + 1)) tail = none ∧
      docOK rest (c + 1)

/-! ## General lemmas about the string primitives -/

theorem findSub_self {sep : Str} (r : Str) (hne : sep ≠ []) :
    findSub sep (sep ++ r) = some ([], r) := by
  cases sep with
  | nil => exact absurd rfl hne
  | cons h p =>
    show findSub (h :: p) ((h :: p) ++ r) = some ([], r)
    rw [List.cons_append, findSub, if_pos]
    · simp
    · exact leadsWith_append_self (h :: p) r

theorem findSub_cons_not_leads {pat : Str} {c : Char} {s : Str}
    (h : leadsWith pat (c :: s) = false) :
    findSub pat (c :: s) = (findSub pat s).map (fun q => (c :: q.1, q.2)) := by
  rw [findSub, if_neg (by simp [h])]
  cases findSub pat s <;> simp

theorem findSub_append_left {hc : Char} {p x y : Str} (hx : hc ∉ x) :
    findSub (hc :: p) (x ++ y) =
      (findSub (hc :: p) y).map (fun q => (x ++ q.1, q.2)) := by
  induction x with
  | nil =>
    simp only [List.nil_append]
    cases findSub (hc :: p) y <;> simp
  | cons c x' ih =>
    have hcx : c ≠ hc := fun h => hx (h ▸ List.mem_cons_self c x')
    have hx' : hc ∉ x' := fun h => hx (List.mem_cons_of_mem c h)
    have hlw : leadsWith (hc :: p) (c :: (x' ++ y)) = false := by
      simp only [leadsWith, Bool.and_eq_false_iff, decide_eq_false_iff_not]
      exact Or.inl (fun h => hcx h.symm)
    rw [List.cons_append, findSub_cons_not_leads hlw, ih hx']
    cases findSub (hc :: p) y <;> simp

theorem findSub_single_none {c : Char} {s : Str} (h : c ∉ s) :
    findSub [c] s = none := by
  have := findSub_append_left (p := []) (y := []) (x := s) h
  simpa using this

theorem findSub_single_decomp {c : Char} {a b : Str} (ha : c ∉ a) :
    findSub [c] (a ++ c :: b) = some (a, b) := by
  have h1 : findSub [c] (c :: b) = some ([], b) := @findSub_self [c] b (by simp)
  have := findSub_append_left (p := []) (x := a) (y := c :: b) ha
  rw [this, h1]
  simp

theorem findSub_isSome_of_mem {c : Char} {s : Str} (h : c ∈ s) :
    (findSub [c] s).isSome = true := by
  induction s with
  | nil => simp at h
  | cons d rest ih =>
    by_cases hl : leadsWith [c] (d :: rest) = true
    · rw [findSub, if_pos hl]
      simp
    · have hcd : c ≠ d := by
        intro hcd
        apply hl
        simp [leadsWith, hcd]
      have hr : c ∈ rest := by
        rcases List.mem_cons.mp h with h1 | h1
        · exact absurd h1 hcd
        · exact h1
      rw [findSub, if_neg hl]
      cases hfs : findSub [c] rest with
      | none =>
        have hsome := ih hr
        rw [hfs] at hsome
        simp at hsome
      | some q => simp

/-! ## Claim theorems -/

/-- The two `<rdg>` lines `_omission_xml` produces for a plain two-witness
omission: the first witness carries `base`, the second carries the
omission gap. -/
def rdgLinesOm (base w1 w2 : Str) : List Str :=
  [xmlOss ++ "<rdg wit=\"#".toList ++ w1 ++ "\">".toList ++ base ++
     "</rdg>".toList,
   xmlOss ++ "<rdg wit=\"#".toList ++ w2 ++ "\">".toList ++
     '\n' :: (xmlOss ++ xmlOss ++ "<gap reason=\"omission\"/>".toList) ++
     '\n' :: (xmlOss ++ "</rdg>".toList)]

/-- Claim C5: classifying the omission footnote `"ssss ] W1: om. W2"` yields
a record in which witness `W1` is not omitted and carries the base reading
`ssss` (the shared `text` field together with a `None` omission flag) while
witness `W2` is flagged omitted with no reading of its own; rendering emits a
`<rdg wit="#W1">` element containing `ssss` and a `<rdg wit="#W2">` element
containing `<gap reason="omission"/>`. -/
theorem omission_two_witness_example :
    omission ⟨"ssss ] W1: om. W2".toList, 5, [], .empty⟩ =
      .ok ⟨"ssss ] W1: om. W2".toList, 5,
        rdgLinesOm "ssss".toList "W1".toList "W2".toList,
        .om none (some "ssss".toList) [some "W1".toList, some "W2".toList]
          none [none, some "omission".toList]⟩ := by
  rfl

/-- Claim C1 (amended): for a line consisting of text `pre` followed by the
marker for the expected cursor `c`, the splicer partitions `pre` at the
FIRST `'#'` character (not the last); with no `'#'` it partitions at the
last space; with neither a `'#'` nor a space it raises
`AnalysisException`. -/
theorem splice_flag_boundary (pre : Str) (c : Nat)
    (hfind : findSub (fnSymbol c) (pre ++ fnSymbol c) = some (pre, [])) :
    (∀ a b, pre = a ++ '#' :: b → '#' ∉ a →
        footnotes (pre ++ fnSymbol c) c = .ok (markerChunk c a b, c + 1)) ∧
    ('#' ∉ pre → ∀ a b, pre = a ++ ' ' :: b → ' ' ∉ b →
        footnotes (pre ++ fnSymbol c) c = .ok (markerChunk c a b, c + 1)) ∧
    ('#' ∉ pre → ' ' ∉ pre →
        footnotes (pre ++ fnSymbol c) c = .error .analysisException) := by
  refine ⟨?_, ?_, ?_⟩
  · intro a b hpre ha
    subst hpre
    have hfs : findSub ['#'] (a ++ '#' :: b) = some (a, b) :=
      findSub_single_decomp ha
    simp only [footnotes, fnLoopF, hfind, pyPartition, hfs]
    simp
  · intro hnh a b hpre hb
    subst hpre
    have hfs : findSub ['#'] (a ++ ' ' :: b) = none := findSub_single_none hnh
    have hbr : ' ' ∉ b.reverse := by simpa using hb
    have hrev : (a ++ ' ' :: b).reverse = b.reverse ++ ' ' :: a.reverse := by
      simp
    have hfs2 : findSub [' '] ((a ++ ' ' :: b).reverse) =
        some (b.reverse, a.reverse) := by
      rw [hrev]
      exact findSub_single_decomp hbr
    simp only [footnotes, fnLoopF, hfind, pyPartition, hfs, rpartitionChar,
      hfs2]
    simp
  · intro hnh hns
    have hfs : findSub ['#'] pre = none := findSub_single_none hnh
    have hnsr : ' ' ∉ pre.reverse := by simpa using hns
    have hfs2 : findSub [' '] pre.reverse = none := findSub_single_none hnsr
    simp only [footnotes, fnLoopF, hfind, pyPartition, hfs, rpartitionChar,
      hfs2]
    simp

/-- Witness for `splice_flag_boundary`: on `"aa#bb*1*"` the flagged span is
`bb` (after the `'#'`), and on `"aa bb*1*"` it is `bb` (after the last
space). -/
theorem splice_flag_boundary_witness :
    footnotes ("aa#bb".toList ++ fnSymbol 1) 1 =
      .ok (markerChunk 1 "aa".toList "bb".toList, 2) ∧
    footnotes ("aa bb".toList ++ fnSymbol 1) 1 =
      .ok (markerChunk 1 "aa".toList "bb".toList, 2) ∧
    footnotes ("aabb".toList ++ fnSymbol 1) 1 = .error .analysisException := by
  refine ⟨?_, ?_, ?_⟩
  · exact (splice_flag_boundary "aa#bb".toList 1 (by decide)).1
      "aa".toList "bb".toList (by decide) (by decide)
  · exact (splice_flag_boundary "aa bb".toList 1 (by decide)).2.1
      (by decide) "aa".toList "bb".toList (by decide) (by decide)
  · exact (splice_flag_boundary "aabb".toList 1 (by decide)).2.2
      (by decide) (by decide)

/-- Claim C1, counterexample to the stated boundary rule: on the line
`"a#b#c*1*"` (two `'#'` characters before the marker) the code flags the
span `"b#c"` — everything after the FIRST `'#'` — whereas partitioning at
the LAST `'#'`, as the claim states, would flag `"c"`. -/
theorem splice_flag_not_last_hash :
    footnotes "a#b#c*1*".toList 1 =
      .ok ([xmlIndent ++ "a".toList,
            xmlIndent ++ appString 1 "b#c".toList,
            xmlIndent ++ "</app>".toList], 2) ∧
    footnotes "a#b#c*1*".toList 1 ≠
      .ok ([xmlIndent ++ "a#b".toList,
            xmlIndent ++ appString 1 "c".toList,
            xmlIndent ++ "</app>".toList], 2) := by
  constructor
  · rfl
  · decide

/-- Scenario for the shared default list: two footnotes constructed without
an `xml` argument, rendered one after the other; returns the contents of
footnote A's list right after A is rendered and of footnote B's list after B
is rendered. -/
def sharedScenario : Except PyErr (List Str × List Str) :=
  let pA := mkFootnote "ssss ] W1: om. W2".toList 1 none initialHeap
  match omissionOnHeap pA.1 pA.2 with
  | .error e => .error e
  | .ok h2 =>
    let pB := mkFootnote "tttt ] W3: om. W4".toList 2 none h2
    match omissionOnHeap pB.1 pB.2 with
    | .error e => .error e
    | .ok h4 => .ok (heapGet h2 pA.1.xmlId, heapGet h4 pB.1.xmlId)

/-- The same two footnotes, with the caller passing a freshly allocated list
to each constructor; both lists are read back at the end. -/
def freshScenario : Except PyErr (List Str × List Str) :=
  let a1 := heapAlloc initialHeap []
  let pA := mkFootnote "ssss ] W1: om. W2".toList 1 (some a1.2) a1.1
  match omissionOnHeap pA.1 pA.2 with
  | .error e => .error e
  | .ok h2 =>
    let a2 := heapAlloc h2 []
    let pB := mkFootnote "tttt ] W3: om. W4".toList 2 (some a2.2) a2.1
    match omissionOnHeap pB.1 pB.2 with
    | .error e => .error e
    | .ok h4 => .ok (heapGet h4 pA.1.xmlId, heapGet h4 pB.1.xmlId)

/-- Claim C10: every `Footnote` constructed without an explicit `xml`
argument is bound to the single shared default list (slot `0`), so after
rendering footnote A and then constructing and rendering footnote B this
way, B's output list begins with all of A's XML lines (it is exactly
A's lines followed by B's); when the caller passes a fresh list to each
constructor the two outputs are disjoint. -/
theorem footnote_default_xml_shared :
    (∀ (fn : Str) (n : Nat) (h : Heap),
        ((mkFootnote fn n none h).1).xmlId = defaultXmlId) ∧
    sharedScenario =
      .ok (rdgLinesOm "ssss".toList "W1".toList "W2".toList,
           rdgLinesOm "ssss".toList "W1".toList "W2".toList ++
             rdgLinesOm "tttt".toList "W3".toList "W4".toList) ∧
    freshScenario =
      .ok (rdgLinesOm "ssss".toList "W1".toList "W2".toList,
           rdgLinesOm "tttt".toList "W3".toList "W4".toList) := by
  refine ⟨fun fn n h => rfl, by rfl, by rfl⟩

/-- Claim C3, counterexample: a two-line footnote list whose lines are both
numbered `*1*` passes every check in `Footnotes._dictionary` (the decimal
string "2" does occur in the final line `"*1* yy2"`), and the resulting
table has the single key 1: it does not map every `k` in `1..2`. -/
theorem dictionary_gap_cex :
    dictionary ["*1* ssss ] tttt: uuuu W2".toList, "*1* yy2".toList] =
      .ok [((1 : Int), "yy2".toList)] ∧
    odLookup 2 [((1 : Int), "yy2".toList)] = none := by
  constructor
  · rfl
  · rfl

/-- Claim C4, counterexample: the final entry is numbered `*9*`, the list has
2 entries, yet the build succeeds, because the numeration check only asks
whether the decimal string of the entry count ("2") occurs anywhere in the
final line — here inside the witness code `2W`. -/
theorem dictionary_count_mismatch_cex :
    pySplit ['*'] "*9* xxx ] yyy: zzz 2W".toList =
      [[], "9".toList, " xxx ] yyy: zzz 2W".toList] ∧
    pyInt "9".toList = some 9 ∧ (9 : Int) ≠ 2 ∧
    dictionary ["*1* aaa ] bbb: ccc W2".toList,
                "*9* xxx ] yyy: zzz 2W".toList] =
      .ok [((1 : Int), "aaa ] bbb: ccc W2".toList),
           ((9 : Int), "xxx ] yyy: zzz 2W".toList)] := by
  refine ⟨by rfl, by rfl, by decide, by rfl⟩

theorem odInsert_of_notMem {k : Int} {v : Str} :
    ∀ {l : List (Int × Str)}, k ∉ l.map Prod.fst →
      odInsert k v l = l ++ [(k, v)] := by
  intro l
  induction l with
  | nil => intro _; rfl
  | cons p rest ih =>
    intro h
    obtain ⟨k', v'⟩ := p
    have hk : k ≠ k' := by
      intro hkk
      exact h (by simp [hkk])
    have hrest : k ∉ rest.map Prod.fst := by
      intro hm
      exact h (by simp [hm])
    simp [odInsert, hk, ih hrest]

theorem odLookup_isSome_of_mem {k : Int} :
    ∀ {l : List (Int × Str)}, k ∈ l.map Prod.fst →
      (odLookup k l).isSome = true := by
  intro l
  induction l with
  | nil => intro h; simp at h
  | cons p rest ih =>
    intro h
    obtain ⟨k', v'⟩ := p
    by_cases hk : k = k'
    · simp [odLookup, hk]
    · have hrest : k ∈ rest.map Prod.fst := by
        rcases List.mem_map.mp h with ⟨q, hq, hqk⟩
        rcases List.mem_cons.mp hq with h1 | h1
        · exact absurd (by rw [← hqk, h1]) hk
        · exact List.mem_map.mpr ⟨q, h1, hqk⟩
      simp [odLookup, hk, ih hrest]

theorem buildDict_ok :
    ∀ (lines : List Str) (acc : List (Int × Str)),
      (∀ i (hi : i < lines.length), ∃ a k v,
          pySplit ['*'] (lines.get ⟨i, hi⟩) = [a, k, v] ∧
          (pyInt k).isSome = true) →
      ∃ tbl, buildDict lines acc = .ok tbl := by
  intro lines
  induction lines with
  | nil => intro acc _; exact ⟨acc, rfl⟩
  | cons l rest ih =>
    intro acc hwf
    obtain ⟨a, k, v, hsplit, hk⟩ := hwf 0 (by simp)
    simp only [List.get] at hsplit
    cases hpi : pyInt k with
    | none => rw [hpi] at hk; simp at hk
    | some ki =>
      have hrest : ∀ i (hi : i < rest.length), ∃ a k v,
          pySplit ['*'] (rest.get ⟨i, hi⟩) = [a, k, v] ∧
          (pyInt k).isSome = true := by
        intro i hi
        have := hwf (i + 1) (by simpa using Nat.succ_lt_succ hi)
        simpa [List.get] using this
      obtain ⟨tbl, htbl⟩ := ih (odInsert ki (pyStrip ['.', ' '] v) acc) hrest
      refine ⟨tbl, ?_⟩
      rw [buildDict, hsplit]
      show (match pyInt k with
            | some ki => buildDict rest (odInsert ki (pyStrip ['.', ' '] v) acc)
            | none => Except.error PyErr.valueError) = Except.ok tbl
      rw [hpi]
      exact htbl

theorem buildDict_keys_aux :
    ∀ (lines : List Str) (m : Nat) (acc tbl : List (Int × Str)),
      acc.map Prod.fst = (List.range m).map (fun i : Nat => (i : Int) + 1) →
      (∀ i (hi : i < lines.length), ∃ a k v,
          pySplit ['*'] (lines.get ⟨i, hi⟩) = [a, k, v] ∧
          pyInt k = some ((m : Int) + (i : Int) + 1)) →
      buildDict lines acc = .ok tbl →
      tbl.map Prod.fst =
        (List.range (m + lines.length)).map (fun i : Nat => (i : Int) + 1) := by
  intro lines
  induction lines with
  | nil =>
    intro m acc tbl hacc _ hok
    simp only [buildDict] at hok
    cases hok
    simpa using hacc
  | cons l rest ih =>
    intro m acc tbl hacc hwf hok
    obtain ⟨a, k, v, hsplit, hk⟩ := hwf 0 (by simp)
    simp only [List.get] at hsplit
    simp only [Nat.cast_zero, add_zero] at hk
    rw [buildDict, hsplit] at hok
    replace hok : (match pyInt k with
        | some ki => buildDict rest (odInsert ki (pyStrip ['.', ' '] v) acc)
        | none => Except.error PyErr.valueError) = Except.ok tbl := hok
    rw [hk] at hok
    replace hok : buildDict rest
        (odInsert ((m : Int) + 1) (pyStrip ['.', ' '] v) acc) =
        Except.ok tbl := hok
    have hnot : ((m : Int) + 1) ∉ acc.map Prod.fst := by
      rw [hacc]
      intro hmem
      rcases List.mem_map.mp hmem with ⟨i, hi, hik⟩
      rw [List.mem_range] at hi
      omega
    rw [odInsert_of_notMem hnot] at hok
    have hacc' : (acc ++ [((m : Int) + 1, pyStrip ['.', ' '] v)]).map Prod.fst =
        (List.range (m + 1)).map (fun i : Nat => (i : Int) + 1) := by
      rw [List.map_append, hacc, List.range_succ, List.map_append]
      simp
    have hwf' : ∀ i (hi : i < rest.length), ∃ a k v,
        pySplit ['*'] (rest.get ⟨i, hi⟩) = [a, k, v] ∧
        pyInt k = some (((m + 1 : Nat) : Int) + (i : Int) + 1) := by
      intro i hi
      have := hwf (i + 1) (by simpa using Nat.succ_lt_succ hi)
      simp only [List.get] at this
      obtain ⟨a', k', v', h1, h2⟩ := this
      refine ⟨a', k', v', h1, ?_⟩
      rw [h2]
      congr 1
      push_cast
      ring
    have hrec := ih (m + 1) _ tbl hacc' hwf' hok
    have harith : m + (l :: rest).length = m + 1 + rest.length := by
      simp only [List.length_cons]
      omega
    rw [harith]
    exact hrec

/-- Claim C3 (amended): the table build does not itself enforce that the
stated footnote numbers are `1..N` (see `dictionary_gap_cex`).  When, in
addition to the build succeeding, every line's stated number (the text
between its two `'*'`) parses to its 1-based position, then the table's keys
are exactly the contiguous run `1..N` in order — no gaps, no duplicates —
and every `k` in `1..N` is mapped to a raw footnote text. -/
theorem dictionary_keys_contiguous (lines : List Str) (tbl : List (Int × Str))
    (hwf : ∀ i (hi : i < lines.length), ∃ a k v,
        pySplit ['*'] (lines.get ⟨i, hi⟩) = [a, k, v] ∧
        pyInt k = some ((i : Int) + 1))
    (hok : dictionary lines = .ok tbl) :
    tbl.map Prod.fst = (List.range lines.length).map (fun i : Nat => (i : Int) + 1) ∧
    ∀ k : Int, 1 ≤ k → k ≤ (lines.length : Int) →
      (odLookup k tbl).isSome = true := by
  have hbuild : buildDict lines [] = .ok tbl := by
    simp only [dictionary] at hok
    cases hlast : lines.getLast? with
    | none => rw [hlast] at hok; cases hok
    | some last =>
      rw [hlast] at hok
      replace hok : (if containsSub (decStr lines.length) last = true then
          buildDict lines []
        else Except.error PyErr.footnotesException) = Except.ok tbl := hok
      by_cases hc : containsSub (decStr lines.length) last = true
      · rwa [if_pos hc] at hok
      · rw [if_neg hc] at hok; cases hok
  have hwf' : ∀ i (hi : i < lines.length), ∃ a k v,
      pySplit ['*'] (lines.get ⟨i, hi⟩) = [a, k, v] ∧
      pyInt k = some (((0 : Nat) : Int) + (i : Int) + 1) := by
    intro i hi
    obtain ⟨a, k, v, h1, h2⟩ := hwf i hi
    exact ⟨a, k, v, h1, by rw [h2]; congr 1; push_cast; ring⟩
  have hkeys := buildDict_keys_aux lines 0 [] tbl (by simp) hwf' hbuild
  rw [Nat.zero_add] at hkeys
  refine ⟨hkeys, ?_⟩
  intro k h1 h2
  apply odLookup_isSome_of_mem
  rw [hkeys]
  have hnn : ((k - 1).toNat : Int) = k - 1 := Int.toNat_of_nonneg (by omega)
  refine List.mem_map.mpr ⟨(k - 1).toNat, List.mem_range.mpr ?_, ?_⟩
  · omega
  · rw [hnn]; ring

/-- Witness for `dictionary_keys_contiguous`: a well-numbered two-line list
gives the keys `[1, 2]` and both lookups succeed. -/
theorem dictionary_keys_contiguous_witness :
    [((1 : Int), "aaa ] bbb: ccc W2".toList),
     ((2 : Int), "ddd ] eee: fff W2".toList)].map Prod.fst =
      (List.range 2).map (fun i : Nat => (i : Int) + 1) ∧
    (odLookup 1 [((1 : Int), "aaa ] bbb: ccc W2".toList),
     ((2 : Int), "ddd ] eee: fff W2".toList)]).isSome = true := by
  have h := dictionary_keys_contiguous
    ["*1* aaa ] bbb: ccc W2".toList, "*2* ddd ] eee: fff W2".toList]
    [((1 : Int), "aaa ] bbb: ccc W2".toList),
     ((2 : Int), "ddd ] eee: fff W2".toList)]
    (by
      intro i hi
      rcases i with _ | _ | i
      · refine ⟨[], "1".toList, " aaa ] bbb: ccc W2".toList, ?_, by decide⟩
        show pySplit ['*'] "*1* aaa ] bbb: ccc W2".toList =
          [[], "1".toList, " aaa ] bbb: ccc W2".toList]
        decide
      · refine ⟨[], "2".toList, " ddd ] eee: fff W2".toList, ?_, by decide⟩
        show pySplit ['*'] "*2* ddd ] eee: fff W2".toList =
          [[], "2".toList, " ddd ] eee: fff W2".toList]
        decide
      · exact absurd hi (by simp))
    (by rfl)
  exact ⟨h.1, h.2 1 (by decide) (by decide)⟩

/-- Claim C4 (amended): for a non-empty, well-formed footnote list the build
succeeds exactly when the decimal string of the entry count occurs somewhere
in the final line.  In particular it succeeds whenever the final stated
number equals the count (that number is such an occurrence), but — as
`dictionary_count_mismatch_cex` shows — it can also succeed when the final
stated number differs from the count. -/
theorem dictionary_numeration_check (lines : List Str) (hne : lines ≠ [])
    (hwf : ∀ i (hi : i < lines.length), ∃ a k v,
        pySplit ['*'] (lines.get ⟨i, hi⟩) = [a, k, v] ∧
        (pyInt k).isSome = true) :
    (∃ tbl, dictionary lines = .ok tbl) ↔
      containsSub (decStr lines.length) (lines.getLast hne) = true := by
  have hlast : lines.getLast? = some (lines.getLast hne) :=
    List.getLast?_eq_getLast lines hne
  constructor
  · intro ⟨tbl, htbl⟩
    simp only [dictionary, hlast] at htbl
    by_cases hc : containsSub (decStr lines.length) (lines.getLast hne) = true
    · exact hc
    · rw [if_neg hc] at htbl; cases htbl
  · intro hc
    obtain ⟨tbl, htbl⟩ := buildDict_ok lines [] hwf
    exact ⟨tbl, by simp only [dictionary, hlast]; rw [if_pos hc]; exact htbl⟩

/-- Witness for `dictionary_numeration_check`: with a final line that does
contain the count the build succeeds; replacing the final line by one without
the substring "2" makes it fail. -/
theorem dictionary_numeration_check_witness :
    (∃ tbl, dictionary ["*1* aaa ] bbb: ccc W2".toList,
        "*2* ddd ] eee: fff W2".toList] = .ok tbl) ∧
    ¬ (∃ tbl, dictionary ["*1* aaa ] bbb: ccc W9".toList,
        "*9* ddd ] eee: fff W9".toList] = .ok tbl) := by
  constructor
  · exact (dictionary_numeration_check
      ["*1* aaa ] bbb: ccc W2".toList, "*2* ddd ] eee: fff W2".toList]
      (by decide)
      (by
        intro i hi
        rcases i with _ | _ | i
        · refine ⟨[], "1".toList, " aaa ] bbb: ccc W2".toList, ?_, by decide⟩
          show pySplit ['*'] "*1* aaa ] bbb: ccc W2".toList =
            [[], "1".toList, " aaa ] bbb: ccc W2".toList]
          decide
        · refine ⟨[], "2".toList, " ddd ] eee: fff W2".toList, ?_, by decide⟩
          show pySplit ['*'] "*2* ddd ] eee: fff W2".toList =
            [[], "2".toList, " ddd ] eee: fff W2".toList]
          decide
        · exact absurd hi (by simp))).mpr
      (by decide)
  · intro hex
    have := (dictionary_numeration_check
      ["*1* aaa ] bbb: ccc W9".toList, "*9* ddd ] eee: fff W9".toList]
      (by decide)
      (by
        intro i hi
        rcases i with _ | _ | i
        · refine ⟨[], "1".toList, " aaa ] bbb: ccc W9".toList, ?_, by decide⟩
          show pySplit ['*'] "*1* aaa ] bbb: ccc W9".toList =
            [[], "1".toList, " aaa ] bbb: ccc W9".toList]
          decide
        · refine ⟨[], "9".toList, " ddd ] eee: fff W9".toList, ?_, by decide⟩
          show pySplit ['*'] "*9* ddd ] eee: fff W9".toList =
            [[], "9".toList, " ddd ] eee: fff W9".toList]
          decide
        · exact absurd hi (by simp))).mp hex
    revert this
    decide

theorem omissionXml_dfoot_eq (f : Str) (n1 n2 : Nat) (x1 x2 : List Str)
    (d : DFoot) :
    Except.map FNState.dfoot (omissionXml ⟨f, n1, x1, d⟩) =
      Except.map FNState.dfoot (omissionXml ⟨f, n2, x2, d⟩) := by
  cases d with
  | empty => rfl
  | note s => rfl
  | corr r t w c => rfl
  | om reason text wits corr omits =>
    cases reason with
    | none =>
      simp only [omissionXml]
      cases omWitGo text omits 0 wits <;> rfl
    | some r =>
      simp only [omissionXml]
      by_cases hr : r = "correxi".toList ∨ r = "conieci".toList
      · rw [if_pos hr, if_pos hr]
        cases text with
        | none => rfl
        | some t => cases omWitGo corr omits 0 wits <;> rfl
      · rw [if_neg hr, if_neg hr]
        rfl

theorem correctionXml_dfoot_eq (f : Str) (n1 n2 : Nat) (x1 x2 : List Str)
    (d : DFoot) :
    Except.map FNState.dfoot (correctionXml ⟨f, n1, x1, d⟩) =
      Except.map FNState.dfoot (correctionXml ⟨f, n2, x2, d⟩) := by
  cases d with
  | empty => rfl
  | note s => rfl
  | om r t w c o => rfl
  | corr reason text wits corrs =>
    simp only [correctionXml]
    by_cases ha : reason = "add".toList
    · rw [if_pos ha, if_pos ha]
      cases addLinesGo corrs 0 wits <;> rfl
    · rw [if_neg ha, if_neg ha]
      cases corrWitGo corrs 0 wits <;> rfl

/-- Claim C9: re-classifying the same raw footnote text (on states that agree
on the footnote text and on the pre-existing `d_footnote`, e.g. two freshly
constructed `Footnote` objects) yields a `d_footnote` record with identical
fields, regardless of the footnote number, of any XML accumulated so far, or
of how many footnotes were classified before; this holds for the omission
path and for every `correction(reason)` path. -/
theorem classification_pure (st1 st2 : FNState) (r : Str)
    (hfn : st1.footnote = st2.footnote) (hd : st1.dfoot = st2.dfoot) :
    Except.map FNState.dfoot (omission st1) =
      Except.map FNState.dfoot (omission st2) ∧
    Except.map FNState.dfoot (correction r st1) =
      Except.map FNState.dfoot (correction r st2) := by
  obtain ⟨f1, n1, x1, d1⟩ := st1
  obtain ⟨f2, n2, x2, d2⟩ := st2
  simp only at hfn hd
  subst hfn
  subst hd
  constructor
  · simp only [omission]
    cases omissionParse f1 with
    | noteEarly => rfl
    | set d' => exact omissionXml_dfoot_eq f1 n1 n2 x1 x2 d'
    | caught =>
      exact omissionXml_dfoot_eq f1 n1 n2 (x1 ++ [noteLine f1])
        (x2 ++ [noteLine f1]) d1
  · simp only [correction]
    cases correctionParse r f1 with
    | set d' => exact correctionXml_dfoot_eq f1 n1 n2 x1 x2 d'
    | caught =>
      exact correctionXml_dfoot_eq f1 n1 n2 (x1 ++ [noteLine f1])
        (x2 ++ [noteLine f1]) d1

/-- Witness for `classification_pure`: the same footnote classified on two
states that differ in footnote number and accumulated XML yields the same
record. -/
theorem classification_pure_witness :
    Except.map FNState.dfoot
        (omission ⟨"ssss ] W1: om. W2".toList, 1, [], .empty⟩) =
      Except.map FNState.dfoot
        (omission ⟨"ssss ] W1: om. W2".toList, 7,
          [noteLine "old".toList], .empty⟩) ∧
    Except.map FNState.dfoot
        (correction "standard".toList
          ⟨"ssss ] W1: tttt W2".toList, 1, [], .empty⟩) =
      Except.map FNState.dfoot
        (correction "standard".toList
          ⟨"ssss ] W1: tttt W2".toList, 7,
          [noteLine "old".toList], .empty⟩) := by
  constructor
  · exact (classification_pure
      ⟨"ssss ] W1: om. W2".toList, 1, [], .empty⟩
      ⟨"ssss ] W1: om. W2".toList, 7, [noteLine "old".toList], .empty⟩
      "standard".toList rfl rfl).1
  · exact (classification_pure
      ⟨"ssss ] W1: tttt W2".toList, 1, [], .empty⟩
      ⟨"ssss ] W1: tttt W2".toList, 7, [noteLine "old".toList], .empty⟩
      "standard".toList rfl rfl).2

def c6Fn : Str := "ssss ] correxi: tttt W1: om. W2".toList

/-- The record `omission` classification builds for `c6Fn`. -/
def c6Rec : DFoot :=
  .om (some "correxi".toList) (some "ssss".toList)
    [some "W1".toList, some "W2".toList] (some "tttt".toList)
    [none, some "omission".toList]

/-- The same record after one rendering: the `text` field has been
overwritten with the correction. -/
def c6RecAfter : DFoot :=
  .om (some "correxi".toList) (some "tttt".toList)
    [some "W1".toList, some "W2".toList] (some "tttt".toList)
    [none, some "omission".toList]

def c6Delta1 : List Str :=
  corrBlock false "ssss".toList ++
    rdgLinesOm "tttt".toList "W1".toList "W2".toList

def c6Delta2 : List Str :=
  corrBlock false "tttt".toList ++
    rdgLinesOm "tttt".toList "W1".toList "W2".toList

/-- Claim C6, counterexample: rendering the omission-with-correxi record
classified from `"ssss ] correxi: tttt W1: om. W2"` overwrites the record's
base text (`ssss` becomes `tttt`), and rendering the same record a second
time appends different lines (the `<corr>` element now contains `tttt`), so
the Apparatus Renderer is not a pure function of the record. -/
theorem omission_render_mutates_record :
    omissionParse c6Fn = .set c6Rec ∧
    omissionXml ⟨c6Fn, 1, [], c6Rec⟩ = .ok ⟨c6Fn, 1, c6Delta1, c6RecAfter⟩ ∧
    omissionXml ⟨c6Fn, 1, c6Delta1, c6RecAfter⟩ =
      .ok ⟨c6Fn, 1, c6Delta1 ++ c6Delta2, c6RecAfter⟩ ∧
    c6RecAfter ≠ c6Rec ∧ c6Delta2 ≠ c6Delta1 := by
  refine ⟨by rfl, by rfl, by rfl, by decide, by decide⟩

/-- Claim C6 (amended): `_correction_xml` — for every record shape it
handles — and `_omission_xml` on omission records whose editorial reason is
not `correxi`/`conieci` are pure: whenever rendering succeeds it only appends
lines to the output list, it leaves every field of the record (and the rest
of the state) unchanged, and rendering the same record again appends exactly
the same lines.  (For omission records with editorial reason
`correxi`/`conieci` this fails: see `omission_render_mutates_record`.) -/
theorem render_pure_except_editorial (st st' : FNState) :
    (correctionXml st = .ok st' →
      st'.dfoot = st.dfoot ∧ st'.footnote = st.footnote ∧
      st'.n_footnote = st.n_footnote ∧
      st'.xml = st.xml ++ st'.xml.drop st.xml.length ∧
      correctionXml st' =
        .ok ⟨st.footnote, st.n_footnote,
             st'.xml ++ st'.xml.drop st.xml.length, st.dfoot⟩) ∧
    (∀ reason text wits corr omits,
      st.dfoot = .om reason text wits corr omits →
      reason ≠ some "correxi".toList → reason ≠ some "conieci".toList →
      omissionXml st = .ok st' →
      st'.dfoot = st.dfoot ∧ st'.footnote = st.footnote ∧
      st'.n_footnote = st.n_footnote ∧
      st'.xml = st.xml ++ st'.xml.drop st.xml.length ∧
      omissionXml st' =
        .ok ⟨st.footnote, st.n_footnote,
             st'.xml ++ st'.xml.drop st.xml.length, st.dfoot⟩) := by
  obtain ⟨f, n, x, d⟩ := st
  constructor
  · intro hok
    cases d with
    | empty => cases hok
    | note s => cases hok
    | om r t w c o => cases hok
    | corr reason text wits corrs =>
      simp only [correctionXml] at hok
      by_cases ha : reason = "add".toList
      · rw [if_pos ha] at hok
        cases hadd : addLinesGo corrs 0 wits with
        | error e => rw [hadd] at hok; cases hok
        | ok ls =>
          rw [hadd] at hok
          cases hok
          refine ⟨rfl, rfl, rfl, ?_, ?_⟩
          · simp only
            rw [List.drop_left]
          · simp only
            rw [List.drop_left]
            simp only [correctionXml]
            rw [if_pos ha, hadd]
      · rw [if_neg ha] at hok
        cases hcw : corrWitGo corrs 0 wits with
        | error e => rw [hcw] at hok; cases hok
        | ok ls =>
          rw [hcw] at hok
          cases hok
          refine ⟨rfl, rfl, rfl, ?_, ?_⟩
          · simp only
            rw [List.append_assoc, List.drop_left]
          · simp only
            rw [List.append_assoc, List.drop_left]
            simp only [correctionXml]
            rw [if_neg ha, hcw]
            simp only [List.append_assoc]
  · intro reason text wits corr omits hdf hc1 hc2 hok
    subst hdf
    cases reason with
    | none =>
      simp only [omissionXml] at hok
      cases hwg : omWitGo text omits 0 wits with
      | error e => rw [hwg] at hok; cases hok
      | ok ls =>
        rw [hwg] at hok
        cases hok
        refine ⟨rfl, rfl, rfl, ?_, ?_⟩
        · simp only
          rw [List.drop_left]
        · simp only
          rw [List.drop_left]
          simp only [omissionXml]
          rw [hwg]
    | some r =>
      have hr : ¬ (r = "correxi".toList ∨ r = "conieci".toList) := by
        intro h
        rcases h with h | h
        · exact hc1 (by rw [h])
        · exact hc2 (by rw [h])
      simp only [omissionXml] at hok
      rw [if_neg hr] at hok
      cases hok
      refine ⟨rfl, rfl, rfl, ?_, ?_⟩
      · simp only
        rw [List.drop_left]
      · simp only
        rw [List.drop_left]
        simp only [omissionXml]
        rw [if_neg hr]

/-- Witness for `render_pure_except_editorial`: rendering the Standard
record of `"ssss ] W1: tttt W2"` leaves the record unchanged and a second
rendering appends the same two lines. -/
theorem render_pure_except_editorial_witness :
    (⟨"ssss ] W1: tttt W2".toList, 1,
        rdgLinesOm "ssss".toList "W1".toList "W2".toList ++ [],
        .corr "standard".toList "ssss".toList
          [["W1".toList], ["W2".toList]]
          ["ssss".toList, "tttt".toList]⟩ : FNState).dfoot =
      (⟨"ssss ] W1: tttt W2".toList, 1, [],
        .corr "standard".toList "ssss".toList
          [["W1".toList], ["W2".toList]]
          ["ssss".toList, "tttt".toList]⟩ : FNState).dfoot := by
  have h := (render_pure_except_editorial
    ⟨"ssss ] W1: tttt W2".toList, 1, [],
      .corr "standard".toList "ssss".toList
        [["W1".toList], ["W2".toList]]
        ["ssss".toList, "tttt".toList]⟩
    ⟨"ssss ] W1: tttt W2".toList, 1,
      [xmlOss ++ "<rdg wit=\"#W1\">ssss</rdg>".toList,
       xmlOss ++ "<rdg wit=\"#W2\">tttt</rdg>".toList],
      .corr "standard".toList "ssss".toList
        [["W1".toList], ["W2".toList]]
        ["ssss".toList, "tttt".toList]⟩).1 (by rfl)
  exact h.1

theorem malformedRefsF_nil : ∀ f : Nat, malformedRefsF f [] = false := by
  intro f
  cases f <;> simp [malformedRefsF, findSub]

theorem refs_lockstep :
    ∀ (n : Nat) (s : Str), s.length ≤ n →
      ∀ (f1 f2 : Nat) (acc : Str), s.length < f1 → s.length < f2 →
        (refLoopF f1 s acc = .error .analysisException ↔
          malformedRefsF f2 s = true) := by
  intro n
  induction n with
  | zero =>
    intro s hs f1 f2 acc h1 h2
    have hsnil : s = [] := List.length_eq_zero.mp (Nat.le_zero.mp hs)
    subst hsnil
    obtain ⟨f1', rfl⟩ : ∃ k, f1 = k + 1 := ⟨f1 - 1, by omega⟩
    obtain ⟨f2', rfl⟩ : ∃ k, f2 = k + 1 := ⟨f2 - 1, by omega⟩
    simp [refLoopF, malformedRefsF, findSub]
  | succ n ih =>
    intro s hs f1 f2 acc h1 h2
    obtain ⟨f1', rfl⟩ : ∃ k, f1 = k + 1 := ⟨f1 - 1, by omega⟩
    obtain ⟨f2', rfl⟩ : ∃ k, f2 = k + 1 := ⟨f2 - 1, by omega⟩
    cases hf : findSub ['['] s with
    | none => simp [refLoopF, malformedRefsF, hf]
    | some p =>
      obtain ⟨before, after⟩ := p
      have hsplit := findSub_eq_some hf
      cases h2f : findSub [']'] after with
      | none => simp [refLoopF, malformedRefsF, hf, h2f]
      | some q =>
        obtain ⟨ref, rest⟩ := q
        have hsplit2 := findSub_eq_some h2f
        cases h3f : findSub [' '] ref with
        | none => simp [refLoopF, malformedRefsF, hf, h2f, h3f]
        | some r =>
          obtain ⟨wit, page⟩ := r
          by_cases hrest : rest = []
          · subst hrest
            simp [refLoopF, malformedRefsF, hf, h2f, h3f, malformedRefsF_nil]
          · have hlen : rest.length + 2 ≤ s.length := by
              rw [hsplit, hsplit2]
              simp only [List.length_append, List.length_cons,
                List.length_nil]
              omega
            simp only [refLoopF, malformedRefsF, hf, h2f, h3f, if_neg hrest]
            have hdec : ¬ (some (wit, page) = (none : Option (Str × Str))) := by
              simp
            rw [if_neg hdec]
            exact ih rest (by omega) f1' f2' _ (by omega) (by omega)

/-- Claim C8: the Reference Resolver raises `AnalysisException` exactly when
(scanning left to right) some `'['` has no subsequent closing `']'`, or the
reference body between a `'['` and the next `']'` contains no space; an
absent (`None`) or empty input line yields the no-op result `None` without
raising. -/
theorem references_raises_iff :
    references none = .ok none ∧ references (some []) = .ok none ∧
    ∀ s : Str, (references (some s) = .error .analysisException ↔
      malformedRefs s = true) := by
  refine ⟨rfl, rfl, ?_⟩
  intro s
  by_cases hs : s = []
  · subst hs
    simp [references, malformedRefs, malformedRefsF, findSub]
  · simp only [references, if_neg hs]
    have hmap : ∀ (r : Except PyErr Str),
        (r.map some = (.error .analysisException : Except PyErr (Option Str)))
          ↔ r = .error .analysisException := by
      intro r
      cases r <;> simp [Except.map]
    rw [hmap]
    exact refs_lockstep s.length s le_rfl (s.length + 1) (s.length + 1) []
      (by omega) (by omega)

theorem fnLoopF_none (fuel : Nat) (s : Str) (n : Nat) (hfuel : 0 < fuel)
    (h : findSub (fnSymbol n) s = none) :
    fnLoopF fuel s n = .ok (litLines s, n) := by
  obtain ⟨f', rfl⟩ : ∃ k, fuel = k + 1 := ⟨fuel - 1, by omega⟩
  simp [fnLoopF, h]

theorem footnotes_stale_literal (s : Str) (c : Nat)
    (h : findSub (fnSymbol c) s = none) :
    footnotes s c = .ok (litLines s, c) := by
  simp [footnotes, fnLoopF, h]

theorem fnLoopF_cursor_mono :
    ∀ (fuel : Nat) (s : Str) (n : Nat) (out : List Str × Nat),
      fnLoopF fuel s n = .ok out → n ≤ out.2 := by
  intro fuel
  induction fuel with
  | zero => intro s n out h; cases h
  | succ fuel ih =>
    intro s n out h
    cases hf : findSub (fnSymbol n) s with
    | none =>
      simp only [fnLoopF, hf] at h
      cases h
      exact Nat.le_refl n
    | some p =>
      obtain ⟨before, after⟩ := p
      simp only [fnLoopF, hf] at h
      by_cases hp : (if (pyPartition ['#'] before).2.1 = [] then
          rpartitionChar ' ' before else pyPartition ['#'] before).2.1 = []
      · rw [if_pos hp] at h
        cases h
      · rw [if_neg hp] at h
        by_cases ha : after = []
        · rw [if_pos ha] at h
          cases h
          exact Nat.le_succ n
        · rw [if_neg ha] at h
          cases hrec : fnLoopF fuel after (n + 1) with
          | error e => rw [hrec] at h; cases h
          | ok q =>
            obtain ⟨xs, m⟩ := q
            rw [hrec] at h
            cases h
            have := ih after (n + 1) (xs, m) hrec
            simp only at this ⊢
            omega

theorem footnotes_marked_line (pre tail : Str) (c : Nat)
    (hfind : findSub (fnSymbol c) (pre ++ fnSymbol c ++ tail) =
      some (pre, tail))
    (hsplit : '#' ∈ pre ∨ ' ' ∈ pre)
    (htail : findSub (fnSymbol (c + 1)) tail = none) :
    ∃ xml, footnotes (pre ++ fnSymbol c ++ tail) c = .ok (xml, c + 1) := by
  have hP : (if (pyPartition ['#'] pre).2.1 = [] then rpartitionChar ' ' pre
      else pyPartition ['#'] pre).2.1 ≠ [] := by
    cases hh : findSub ['#'] pre with
    | some q => simp [pyPartition, hh]
    | none =>
      have hsp : ' ' ∈ pre := by
        rcases hsplit with h | h
        · exact absurd (findSub_isSome_of_mem h) (by simp [hh])
        · exact h
      have hws' : (findSub [' '] pre.reverse).isSome = true :=
        findSub_isSome_of_mem (by simpa using hsp)
      cases hws : findSub [' '] pre.reverse with
      | none => rw [hws] at hws'; simp at hws'
      | some w => simp [pyPartition, hh, rpartitionChar, hws]
  refine ⟨markerChunk c
      ((if (pyPartition ['#'] pre).2.1 = [] then rpartitionChar ' ' pre
        else pyPartition ['#'] pre).1)
      ((if (pyPartition ['#'] pre).2.1 = [] then rpartitionChar ' ' pre
        else pyPartition ['#'] pre).2.2) ++
      (if tail = [] then [] else litLines tail), ?_⟩
  simp only [footnotes, fnLoopF, hfind]
  rw [if_neg hP]
  by_cases ht : tail = []
  · subst ht
    rw [if_pos rfl]
    simp
  · rw [if_neg ht]
    rw [fnLoopF_none _ tail (c + 1)
      (by simp only [List.length_append, List.length_cons, fnSymbol]; omega)
      htail]
    simp [ht]

theorem spliceDoc_cursor :
    ∀ (ds : List DocLine) (c : Nat), docOK ds c →
      ∃ xml, spliceDoc (docStrs ds c) c = .ok (xml, c + numMarked ds) := by
  intro ds
  induction ds with
  | nil =>
    intro c _
    exact ⟨[], by simp [spliceDoc, docStrs, numMarked]⟩
  | cons d rest ih =>
    intro c hok
    cases d with
    | plain t =>
      obtain ⟨h1, h2⟩ := hok
      obtain ⟨xs, hxs⟩ := ih c h2
      refine ⟨litLines t ++ xs, ?_⟩
      simp only [docStrs, spliceDoc, numMarked,
        footnotes_stale_literal t c h1, hxs]
    | marked pre tail =>
      obtain ⟨h1, h2, h3, h4⟩ := hok
      obtain ⟨x1, hx1⟩ := footnotes_marked_line pre tail c h1 h2 h3
      obtain ⟨xs, hxs⟩ := ih (c + 1) h4
      refine ⟨x1 ++ xs, ?_⟩
      simp only [docStrs, spliceDoc, numMarked, hx1, hxs]
      have harith : c + 1 + numMarked rest = c + (numMarked rest + 1) := by
        omega
      rw [harith]

/-- Claim C7: (1) whatever line and cursor the splicer is given, the returned
cursor is never below the input cursor; (2) when the line does not contain the
symbol of the expected cursor — in particular when it only contains markers
`*k*` with `k` below the cursor — the whole line passes through as literal
main-text lines and the cursor is unchanged; (3) splicing all lines of a
well-formed document whose markers are numbered `1..N` in source order,
starting from cursor 1, ends with cursor `N + 1`. -/
theorem splicer_cursor_properties :
    (∀ (s : Str) (c : Nat) (out : List Str × Nat),
        footnotes s c = .ok out → c ≤ out.2) ∧
    (∀ (s : Str) (c : Nat), findSub (fnSymbol c) s = none →
        footnotes s c = .ok (litLines s, c)) ∧
    (∀ ds : List DocLine, docOK ds 1 →
        ∃ xml, spliceDoc (docStrs ds 1) 1 = .ok (xml, numMarked ds + 1)) := by
  refine ⟨?_, ?_, ?_⟩
  · intro s c out h
    exact fnLoopF_cursor_mono (s.length + 1) s c out h
  · intro s c h
    exact footnotes_stale_literal s c h
  · intro ds hok
    obtain ⟨xml, hxml⟩ := spliceDoc_cursor ds 1 hok
    refine ⟨xml, ?_⟩
    rw [hxml, Nat.add_comm 1 (numMarked ds)]

/-- Witness for `splicer_cursor_properties`: a literal line containing the
stale marker `*1*` is passed through unchanged at cursor 3, and a
three-line document with markers `*1*` and `*2*` ends at cursor 3. -/
theorem splicer_cursor_properties_witness :
    footnotes "aa *1* bb".toList 3 =
      .ok (litLines "aa *1* bb".toList, 3) ∧
    (∃ xml, spliceDoc (docStrs
        [DocLine.plain "xx".toList,
         DocLine.marked "aa b".toList " cc".toList,
         DocLine.marked "dd#e".toList []] 1) 1 = .ok (xml, 3)) := by
  constructor
  · exact splicer_cursor_properties.2.1 "aa *1* bb".toList 3 (by decide)
  · exact splicer_cursor_properties.2.2
      [DocLine.plain "xx".toList,
       DocLine.marked "aa b".toList " cc".toList,
       DocLine.marked "dd#e".toList []]
      ⟨by decide, by decide, Or.inr (by decide),
       by decide, by decide, Or.inl (by decide), by decide, trivial⟩

/-- Well-formedness of one `[W L]` reference segment `(t, w, l)` of a
structured line, as the claim requires: the literal text contains no
bracket (and, for the round-trip part, no line break and no markup), the
witness code is non-empty with no space, and neither witness nor location
contains a `']'` or markup. -/
def segWF (sg : Str × Str × Str) : Prop :=
  '[' ∉ sg.1 ∧ '\n' ∉ sg.1 ∧ '<' ∉ sg.1 ∧
    sg.2.1 ≠ [] ∧ ' ' ∉ sg.2.1 ∧ ']' ∉ sg.2.1 ∧ '<' ∉ sg.2.1 ∧
    ']' ∉ sg.2.2 ∧ '<' ∉ sg.2.2

instance segWF_decidable (sg : Str × Str × Str) : Decidable (segWF sg) := by
  unfold segWF
  infer_instance

theorem refLoopF_structured :
    ∀ (segs : List (Str × Str × Str)) (tail : Str) (fuel : Nat) (acc : Str),
      (mkRefLine segs tail).length < fuel →
      (∀ sg ∈ segs, segWF sg) → '[' ∉ tail →
      refLoopF fuel (mkRefLine segs tail) acc =
        .ok (acc ++ refOut segs tail) := by
  intro segs
  induction segs with
  | nil =>
    intro tail fuel acc hfuel hwf htail
    obtain ⟨f', rfl⟩ : ∃ k, fuel = k + 1 := ⟨fuel - 1, by omega⟩
    simp [refLoopF, mkRefLine, refOut, findSub_single_none htail]
  | cons sg rest ih =>
    intro tail fuel acc hfuel hwf htail
    obtain ⟨t, w, l⟩ := sg
    obtain ⟨ht1, ht2, ht3, hw0, hw1, hw2, hw3, hl1, hl2⟩ :=
      hwf (t, w, l) (List.mem_cons_self _ _)
    obtain ⟨f', rfl⟩ : ∃ k, fuel = k + 1 := ⟨fuel - 1, by omega⟩
    have hline : mkRefLine ((t, w, l) :: rest) tail =
        t ++ '[' :: ((w ++ ' ' :: l) ++ ']' :: mkRefLine rest tail) := rfl
    have hfs1 : findSub ['['] (mkRefLine ((t, w, l) :: rest) tail) =
        some (t, (w ++ ' ' :: l) ++ ']' :: mkRefLine rest tail) := by
      rw [hline]
      exact findSub_single_decomp ht1
    have hfs2 : findSub [']']
        ((w ++ ' ' :: l) ++ ']' :: mkRefLine rest tail) =
        some (w ++ ' ' :: l, mkRefLine rest tail) := by
      apply findSub_single_decomp
      intro hmem
      rcases List.mem_append.mp hmem with h | h
      · exact hw2 h
      · rcases List.mem_cons.mp h with h | h
        · exact absurd h (by decide)
        · exact hl1 h
    have hfs3 : findSub [' '] (w ++ ' ' :: l) = some (w, l) :=
      findSub_single_decomp hw1
    simp only [refLoopF, hfs1, hfs2, hfs3]
    by_cases hrl : mkRefLine rest tail = []
    · rw [if_pos hrl]
      simp only [refOut, hrl, if_pos rfl]
      by_cases htnil : t = [] <;>
        simp [htnil, List.append_assoc]
    · rw [if_neg hrl]
      have hlen : (mkRefLine rest tail).length + 2 ≤
          (mkRefLine ((t, w, l) :: rest) tail).length := by
        rw [hline]
        simp only [List.length_append, List.length_cons]
        omega
      rw [ih tail f' _ (by omega)
        (fun sg hsg => hwf sg (List.mem_cons_of_mem _ hsg)) htail]
      simp only [refOut, if_neg hrl]
      by_cases htnil : t = [] <;>
        simp [htnil, List.append_assoc]

theorem countOccF_nil (pat : Str) (hp : pat ≠ []) :
    ∀ fuel, countOccF fuel pat [] = 0 := by
  intro fuel
  cases fuel with
  | zero => rfl
  | succ f =>
    have : findSub pat [] = none := by
      cases pat with
      | nil => exact absurd rfl hp
      | cons c r => rfl
    simp [countOccF, this]

theorem countOccF_skip_notin {hc : Char} {p x y : Str} (hx : hc ∉ x) :
    ∀ fuel, countOccF fuel (hc :: p) (x ++ y) = countOccF fuel (hc :: p) y := by
  intro fuel
  cases fuel with
  | zero => rfl
  | succ f =>
    simp only [countOccF, findSub_append_left hx]
    cases findSub (hc :: p) y with
    | none => simp
    | some q => simp

theorem countOccF_cons_notpre {pat : Str} {c : Char} {s : Str}
    (h : leadsWith pat (c :: s) = false) :
    ∀ fuel, countOccF fuel pat (c :: s) = countOccF fuel pat s := by
  intro fuel
  cases fuel with
  | zero => rfl
  | succ f =>
    simp only [countOccF, findSub_cons_not_leads h]
    cases findSub pat s with
    | none => simp
    | some q => simp

theorem countOccF_zero_of_notin {hc : Char} {p s : Str} (hx : hc ∉ s) :
    ∀ fuel, countOccF fuel (hc :: p) s = 0 := by
  intro fuel
  have h1 := countOccF_skip_notin (p := p) (y := ([] : Str)) hx fuel
  rw [List.append_nil] at h1
  rw [h1]
  exact countOccF_nil (hc :: p) (by simp) fuel

theorem mem_of_mem_dropWhile {a : Char} {q : Char → Bool} :
    ∀ {s : Str}, a ∈ s.dropWhile q → a ∈ s := by
  intro s
  induction s with
  | nil => intro h; simp at h
  | cons c r ih =>
    intro h
    rw [List.dropWhile_cons] at h
    by_cases hq : q c = true
    · rw [if_pos hq] at h
      exact List.mem_cons_of_mem c (ih h)
    · rw [if_neg hq] at h
      exact h

theorem mem_of_mem_stripWs {a : Char} {s : Str} (h : a ∈ stripWs s) :
    a ∈ s := by
  simp only [stripWs] at h
  rw [List.mem_reverse] at h
  have h2 := mem_of_mem_dropWhile h
  rw [List.mem_reverse] at h2
  exact mem_of_mem_dropWhile h2

theorem mkLocus_decomp (w l : Str) :
    mkLocus w l =
      locusOpen ++ (w ++ ("\">".toList ++ (l ++ locusClose))) := by
  simp [mkLocus, locusOpen, locusClose, List.append_assoc]

theorem leadsWith_locusOpen_closer (x : Str) :
    leadsWith locusOpen (locusClose ++ x) = false := by
  show leadsWith ('<' :: "locus target=\"".toList)
    (('<' :: '/' :: "locus>".toList) ++ x) = false
  simp [leadsWith]

theorem countOccF_skip_locusOpen {x : Str} (hx : '<' ∉ x) (y : Str)
    (fuel : Nat) :
    countOccF fuel locusOpen (x ++ y) = countOccF fuel locusOpen y :=
  countOccF_skip_notin (p := "locus target=\"".toList) hx fuel

theorem countOccF_locus (w l : Str) (hw : '<' ∉ w) (hl : '<' ∉ l) :
    ∀ (fuel : Nat) (y : Str),
      countOccF (fuel + 1) locusOpen (mkLocus w l ++ y) =
        1 + countOccF fuel locusOpen y := by
  intro fuel y
  rw [mkLocus_decomp]
  simp only [List.append_assoc]
  have hself : findSub locusOpen
      (locusOpen ++ (w ++ ("\">".toList ++ (l ++ (locusClose ++ y))))) =
      some ([], w ++ ("\">".toList ++ (l ++ (locusClose ++ y)))) :=
    findSub_self _ (by simp [locusOpen])
  simp only [countOccF, hself]
  congr 1
  rw [countOccF_skip_locusOpen hw]
  rw [countOccF_skip_locusOpen (x := "\">".toList) (by decide)]
  rw [countOccF_skip_locusOpen hl]
  show countOccF fuel locusOpen ('<' :: ('/' :: ("locus>".toList ++ y))) =
    countOccF fuel locusOpen y
  rw [countOccF_cons_notpre (c := '<') (s := '/' :: ("locus>".toList ++ y))
    (by exact leadsWith_locusOpen_closer y)]
  show countOccF fuel locusOpen (('/' :: "locus>".toList) ++ y) =
    countOccF fuel locusOpen y
  rw [countOccF_skip_locusOpen (x := '/' :: "locus>".toList) (by decide)]

theorem mkRefLine_eq_nil {rest : List (Str × Str × Str)} {tail : Str}
    (h : mkRefLine rest tail = []) : rest = [] ∧ tail = [] := by
  cases rest with
  | nil => exact ⟨rfl, h⟩
  | cons sg r =>
    obtain ⟨t, w, l⟩ := sg
    simp only [mkRefLine] at h
    rw [List.append_eq_nil] at h
    cases h.2

theorem removeLociF_empty : ∀ fuel : Nat, removeLociF fuel [] = [] := by
  intro fuel
  cases fuel with
  | zero => rfl
  | succ f =>
    have h : leadsWith locusOpen [] = false := by
      simp [locusOpen, leadsWith]
    rw [removeLociF, if_neg (by simp [h])]

theorem removeLociF_skip {x : Str} (hx : '<' ∉ x) :
    ∀ (fuel : Nat) (y : Str), x.length ≤ fuel →
      removeLociF fuel (x ++ y) = x ++ removeLociF (fuel - x.length) y := by
  induction x with
  | nil => intro fuel y h; simp
  | cons c x' ih =>
    intro fuel y h
    simp only [List.length_cons] at h
    obtain ⟨f, rfl⟩ : ∃ k, fuel = k + 1 := ⟨fuel - 1, by omega⟩
    obtain ⟨h1, h2⟩ : ('<' : Char) ≠ c ∧ '<' ∉ x' := by
      simpa [List.mem_cons, not_or] using hx
    have hlw : leadsWith locusOpen (c :: (x' ++ y)) = false := by
      show leadsWith ('<' :: "locus target=\"".toList) (c :: (x' ++ y)) =
        false
      simp only [leadsWith, Bool.and_eq_false_iff, decide_eq_false_iff_not]
      exact Or.inl h1
    rw [List.cons_append, removeLociF, if_neg (by simp [hlw])]
    simp only [List.length_cons]
    have harith : f + 1 - (x'.length + 1) = f - x'.length := by omega
    rw [harith, ih h2 f y (by omega)]
    rfl

theorem findSub_locusClose_skip {x : Str} (hx : '<' ∉ x) (y : Str) :
    findSub locusClose (x ++ y) =
      (findSub locusClose y).map (fun q => (x ++ q.1, q.2)) :=
  findSub_append_left (p := '/' :: "locus>".toList) hx

theorem findSub_locusClose_self (y : Str) :
    findSub locusClose (locusClose ++ y) = some ([], y) :=
  findSub_self y (by simp [locusClose])

theorem removeLociF_locus (w l : Str) (hw : '<' ∉ w) (hl : '<' ∉ l) :
    ∀ (fuel : Nat) (y : Str),
      removeLociF (fuel + 1) (mkLocus w l ++ y) = removeLociF fuel y := by
  intro fuel y
  have hshape : mkLocus w l ++ y =
      locusOpen ++ (w ++ ("\">".toList ++ (l ++ (locusClose ++ y)))) := by
    rw [mkLocus_decomp]
    simp [List.append_assoc]
  have hcons : mkLocus w l ++ y =
      '<' :: ("locus target=\"".toList ++
        (w ++ ("\">".toList ++ (l ++ (locusClose ++ y))))) := by
    rw [hshape]
    rfl
  have hlead : leadsWith locusOpen (mkLocus w l ++ y) = true := by
    rw [hshape]
    exact leadsWith_append_self _ _
  rw [hcons, removeLociF, if_pos (by rw [← hcons]; simp [hlead])]
  have hdrop : ('<' :: ("locus target=\"".toList ++
      (w ++ ("\">".toList ++ (l ++ (locusClose ++ y)))))).drop
        locusOpen.length =
      w ++ ("\">".toList ++ (l ++ (locusClose ++ y))) := by
    rw [← hcons, hshape]
    exact List.drop_left _ _
  rw [hdrop]
  rw [findSub_locusClose_skip hw, findSub_locusClose_skip
    (x := "\">".toList) (by decide), findSub_locusClose_skip hl,
    findSub_locusClose_self]
  rfl

/-- What is left of `refOut` after removing the `<locus>` elements:
the literal texts and the inserted line breaks. -/
def refOutStripped : List (Str × Str × Str) → Str → Str
  | [], tail => tail
  | (t, _, _) :: rest, tail =>
    (if t = [] then [] else t ++ ['\n']) ++
      (if mkRefLine rest tail = [] then [] else '\n' :: refOutStripped rest tail)

theorem mkLocus_length_pos (a b : Str) : 0 < (mkLocus a b).length := by
  have hlit : 0 < ("<locus target=\"".toList : Str).length := by decide
  simp only [mkLocus, List.length_append]
  omega

theorem removeLociF_refOut :
    ∀ (segs : List (Str × Str × Str)) (tail : Str) (fuel : Nat),
      (refOut segs tail).length < fuel →
      (∀ sg ∈ segs, segWF sg) → '<' ∉ tail →
      removeLociF fuel (refOut segs tail) = refOutStripped segs tail := by
  intro segs
  induction segs with
  | nil =>
    intro tail fuel hfuel hwf htail
    simp only [refOut, refOutStripped] at *
    have h := removeLociF_skip htail fuel [] (by omega)
    rw [List.append_nil] at h
    rw [h, removeLociF_empty, List.append_nil]
  | cons sg rest ih =>
    intro tail fuel hfuel hwf htail
    obtain ⟨t, w, l⟩ := sg
    obtain ⟨ht1, ht2, ht3, hw0, hw1, hw2, hw3, hl1, hl2⟩ :=
      hwf (t, w, l) (List.mem_cons_self _ _)
    have hw' : '<' ∉ stripWs w := fun h => hw3 (mem_of_mem_stripWs h)
    have hl' : '<' ∉ stripWs l := fun h => hl2 (mem_of_mem_stripWs h)
    have htp : '<' ∉ (if t = [] then ([] : Str) else t ++ ['\n']) := by
      by_cases hh : t = []
      · simp [hh]
      · simp only [if_neg hh, List.mem_append]
        rintro (h | h)
        · exact ht3 h
        · simp at h
    simp only [refOut] at hfuel ⊢
    rw [List.append_assoc]
    set tP : Str := if t = [] then ([] : Str) else t ++ ['\n'] with htPdef
    set nP : Str := if mkRefLine rest tail = [] then ([] : Str)
      else '\n' :: refOut rest tail with hnPdef
    have hlen1 : tP.length + (mkLocus (stripWs w) (stripWs l)).length +
        nP.length < fuel := by
      simp only [List.length_append] at hfuel
      omega
    have hmlp := mkLocus_length_pos (stripWs w) (stripWs l)
    rw [removeLociF_skip htp fuel _ (by omega)]
    obtain ⟨g, hg⟩ : ∃ k, fuel - tP.length = k + 1 :=
      ⟨fuel - tP.length - 1, by omega⟩
    rw [hg, removeLociF_locus _ _ hw' hl']
    by_cases hrl : mkRefLine rest tail = []
    · obtain ⟨hrest, htl⟩ := mkRefLine_eq_nil hrl
      subst hrest
      simp only [refOutStripped, hnPdef, if_pos hrl]
      rw [removeLociF_empty]
    · have hnP : nP = '\n' :: refOut rest tail := by
        rw [hnPdef, if_neg hrl]
      rw [hnP]
      have hsk := removeLociF_skip (x := ['\n']) (by decide) g
        (refOut rest tail)
      have hg1 : 1 ≤ g := by
        have : nP.length = 1 + (refOut rest tail).length := by
          rw [hnP]
          simp only [List.length_cons]
          omega
        omega
      rw [show ('\n' :: refOut rest tail : Str) =
        ['\n'] ++ refOut rest tail from rfl]
      rw [hsk (by simpa using hg1)]
      have hrec : (refOut rest tail).length < g - List.length ['\n'] := by
        have : nP.length = 1 + (refOut rest tail).length := by
          rw [hnP]
          simp only [List.length_cons]
          omega
        simp only [List.length_cons, List.length_nil]
        omega
      rw [ih tail (g - List.length ['\n']) hrec
        (fun sg hsg => hwf sg (List.mem_cons_of_mem _ hsg)) htail]
      simp [refOutStripped, hrl]

theorem refOut_count :
    ∀ (segs : List (Str × Str × Str)) (tail : Str) (fuel : Nat),
      segs.length < fuel →
      (∀ sg ∈ segs, segWF sg) → '<' ∉ tail →
      countOccF fuel locusOpen (refOut segs tail) = segs.length := by
  intro segs
  induction segs with
  | nil =>
    intro tail fuel hfuel hwf htail
    simp only [refOut, List.length_nil]
    exact countOccF_zero_of_notin (p := "locus target=\"".toList) htail fuel
  | cons sg rest ih =>
    intro tail fuel hfuel hwf htail
    obtain ⟨t, w, l⟩ := sg
    obtain ⟨ht1, ht2, ht3, hw0, hw1, hw2, hw3, hl1, hl2⟩ :=
      hwf (t, w, l) (List.mem_cons_self _ _)
    have hw' : '<' ∉ stripWs w := fun h => hw3 (mem_of_mem_stripWs h)
    have hl' : '<' ∉ stripWs l := fun h => hl2 (mem_of_mem_stripWs h)
    obtain ⟨f', rfl⟩ : ∃ k, fuel = k + 1 := ⟨fuel - 1, by omega⟩
    have htp : '<' ∉ (if t = [] then ([] : Str) else t ++ ['\n']) := by
      by_cases hh : t = []
      · simp [hh]
      · simp only [if_neg hh, List.mem_append]
        rintro (h | h)
        · exact ht3 h
        · simp at h
    simp only [refOut]
    rw [List.append_assoc]
    rw [countOccF_skip_locusOpen htp]
    rw [countOccF_locus _ _ hw' hl']
    by_cases hrl : mkRefLine rest tail = []
    · obtain ⟨hrest, htl⟩ := mkRefLine_eq_nil hrl
      subst hrest
      rw [if_pos hrl]
      rw [countOccF_nil locusOpen (by simp [locusOpen])]
      simp
    · rw [if_neg hrl]
      have hstep : countOccF f' locusOpen ('\n' :: refOut rest tail) =
          countOccF f' locusOpen (refOut rest tail) :=
        countOccF_skip_locusOpen (x := ['\n']) (by decide) _ f'
      rw [hstep]
      simp only [List.length_cons] at hfuel
      rw [ih tail f' (by omega)
        (fun sg hsg => hwf sg (List.mem_cons_of_mem _ hsg)) htail]
      simp only [List.length_cons]
      omega

theorem length_refOut_ge :
    ∀ (segs : List (Str × Str × Str)) (tail : Str),
      segs.length ≤ (refOut segs tail).length := by
  intro segs
  induction segs with
  | nil => intro tail; simp [refOut]
  | cons sg rest ih =>
    intro tail
    obtain ⟨t, w, l⟩ := sg
    have hml := mkLocus_length_pos (stripWs w) (stripWs l)
    simp only [refOut, List.length_append, List.length_cons]
    by_cases hrl : mkRefLine rest tail = []
    · obtain ⟨hrest, _⟩ := mkRefLine_eq_nil hrl
      subst hrest
      simp only [if_pos hrl, List.length_nil, List.length_cons]
      omega
    · have := ih tail
      simp only [if_neg hrl, List.length_cons]
      omega

theorem dropNl_of_no_nl {s : Str} (h : '\n' ∉ s) : dropNl s = s := by
  apply List.filter_eq_self.mpr
  intro a ha
  have hne : a ≠ '\n' := fun he => h (he ▸ ha)
  simp [hne]

theorem dropNl_refOutStripped :
    ∀ (segs : List (Str × Str × Str)) (tail : Str),
      (∀ sg ∈ segs, '\n' ∉ sg.1) → '\n' ∉ tail →
      dropNl (refOutStripped segs tail) =
        (segs.map (fun sg => sg.1)).flatten ++ tail := by
  intro segs
  induction segs with
  | nil =>
    intro tail hwf htail
    simp only [refOutStripped, List.map_nil, List.flatten_nil,
      List.nil_append]
    exact dropNl_of_no_nl htail
  | cons sg rest ih =>
    intro tail hwf htail
    obtain ⟨t, w, l⟩ := sg
    have ht : '\n' ∉ t := hwf (t, w, l) (List.mem_cons_self _ _)
    simp only [refOutStripped, List.map_cons, List.flatten_cons, dropNl,
      List.filter_append]
    by_cases hrl : mkRefLine rest tail = []
    · obtain ⟨hrest, htl⟩ := mkRefLine_eq_nil hrl
      subst hrest
      subst htl
      simp only [if_pos hrl, List.filter_nil, List.append_nil,
        List.map_nil, List.flatten_nil]
      by_cases htn : t = []
      · simp [htn, dropNl]
      · rw [if_neg htn, List.filter_append]
        have h1 : dropNl t = t := dropNl_of_no_nl ht
        simp only [dropNl] at h1
        rw [h1]
        simp
    · rw [if_neg hrl]
      have h2 : List.filter (fun c => c ≠ '\n') ('\n' :: refOutStripped rest tail) =
          List.filter (fun c => c ≠ '\n') (refOutStripped rest tail) := by
        simp
      rw [h2]
      have h3 := ih tail (fun sg hsg => hwf sg (List.mem_cons_of_mem _ hsg))
        htail
      simp only [dropNl] at h3
      rw [h3]
      by_cases htn : t = []
      · simp [htn]
      · rw [if_neg htn, List.filter_append]
        have h1 : dropNl t = t := dropNl_of_no_nl ht
        simp only [dropNl] at h1
        rw [h1]
        simp

/-- Claim C2: a line made of `N ≥ 1` well-formed `[W L]` references
interleaved with markup-free literal text is resolved by `references` into
exactly the output the specification describes — each literal segment, a
line break before and after each inserted element exactly when text adjoins
it, and one `<locus target="W">L</locus>` element per reference in
left-to-right order; the output contains exactly `N` occurrences of the
`<locus target="` opener, and removing the inserted `<locus>` elements and
the inserted line breaks reconstructs the original literal text. -/
theorem references_roundtrip (segs : List (Str × Str × Str)) (tail : Str)
    (hne : segs ≠ [])
    (hwf : ∀ sg ∈ segs, segWF sg)
    (htail : '[' ∉ tail ∧ '<' ∉ tail ∧ '\n' ∉ tail) :
    references (some (mkRefLine segs tail)) = .ok (some (refOut segs tail)) ∧
    countOcc locusOpen (refOut segs tail) = segs.length ∧
    dropNl (removeLoci (refOut segs tail)) =
      (segs.map (fun sg => sg.1)).flatten ++ tail := by
  obtain ⟨ht1, ht2, ht3⟩ := htail
  have hlnnil : mkRefLine segs tail ≠ [] := by
    cases segs with
    | nil => exact absurd rfl hne
    | cons sg r =>
      obtain ⟨t, w, l⟩ := sg
      simp [mkRefLine]
  refine ⟨?_, ?_, ?_⟩
  · simp only [references, if_neg hlnnil]
    rw [refLoopF_structured segs tail ((mkRefLine segs tail).length + 1) []
      (by omega) hwf ht1]
    rfl
  · have hge := length_refOut_ge segs tail
    exact refOut_count segs tail ((refOut segs tail).length + 1)
      (by omega) hwf ht2
  · rw [removeLoci, removeLociF_refOut segs tail
      ((refOut segs tail).length + 1) (by omega) hwf ht2]
    exact dropNl_refOutStripped segs tail
      (fun sg hsg => (hwf sg hsg).2.1) ht3

/-- Witness for `references_roundtrip`: the line `aa[W1 12][W2 3 4]bb`
resolves to two `<locus>` elements, and stripping elements and inserted
breaks gives back `aabb`. -/
theorem references_roundtrip_witness :
    references (some (mkRefLine
        [("aa".toList, "W1".toList, "12".toList),
         ([], "W2".toList, "3 4".toList)] "bb".toList)) =
      .ok (some (refOut
        [("aa".toList, "W1".toList, "12".toList),
         ([], "W2".toList, "3 4".toList)] "bb".toList)) ∧
    countOcc locusOpen (refOut
        [("aa".toList, "W1".toList, "12".toList),
         ([], "W2".toList, "3 4".toList)] "bb".toList) = 2 ∧
    dropNl (removeLoci (refOut
        [("aa".toList, "W1".toList, "12".toList),
         ([], "W2".toList, "3 4".toList)] "bb".toList)) = "aabb".toList := by
  have h := references_roundtrip
    [("aa".toList, "W1".toList, "12".toList),
     ([], "W2".toList, "3 4".toList)] "bb".toList
    (by decide) (by decide) (by decide)
  exact ⟨h.1, h.2.1, h.2.2⟩
